import Mathlib

/-!
A heap-based load balancer (`main.go`)

Shallow embedding of the balancer's pool of workers and of the two operations
that mutate it, `Balancer.dispatch` and `Balancer.completed`, together with the
`container/heap` procedures (`heap.Push`, `heap.Pop`, `heap.Remove`, `up`,
`down`) that drive the `Pool` methods `Len`, `Less`, `Swap`, `Push`, `Pop`.

Modelling conventions

* A `*Worker` is an address `Ptr`; the worker objects live in a memory
  `mem : Ptr → Worker`, so that two slots of the pool holding the same pointer
  alias the same `pending` and `i` fields, as in Go.
* A `Pool` slice is its list of elements plus the number `spare` of unused
  slots of the backing array behind them: `len = pool.length` and
  `cap = pool.length + spare`.
* A run-time panic (index out of range, reslice beyond the capacity) is `none`.
* The loops of `up` and `down` are recursions on a fuel argument that
  `heap.up` and `heap.down` supply; running out of fuel is `none` as well,
  and the theorems below show that it never happens.
* `pending` and `i` are mathematical integers: reaching the 64-bit bounds
  would take 2^63 dispatches to a single worker.
* Positions handed around inside `container/heap` are natural numbers; for
  `j = 0` Go's truncated `(j - 1) / 2` is `0`, which is also what the natural
  number expression gives.
-/

namespace LoadBalancer

/-- Number of requesters, `const nRequester = 100`. -/
def nRequester : Nat := 100

/-- Number of workers, `const nWorker = 10`. -/
def nWorker : Nat := 10

/-- Address of a worker object (a `*Worker`). -/
abbrev Ptr := Nat

/-- The integer fields of `type Worker struct`: the number of pending requests
and the position in the heap. The `requests` channel is not part of the pool
state. -/
structure Worker where
  pending : Int
  i : Int
deriving DecidableEq, Repr

/-- The part of the program state the balancer works on: the worker objects,
the `Pool` slice `b.pool`, and the unused slots behind it. -/
structure State where
  mem : Ptr → Worker
  pool : List Ptr
  spare : Nat

/-- Assignment `w.i = v`. -/
def setI (m : Ptr → Worker) (w : Ptr) (v : Int) : Ptr → Worker :=
  Function.update m w { m w with i := v }

/-- Assignment `w.pending = v`. -/
def setPending (m : Ptr → Worker) (w : Ptr) (v : Int) : Ptr → Worker :=
  Function.update m w { m w with pending := v }

/-- Capacity of the pool slice, `cap(b.pool)`. -/
def State.cap (s : State) : Nat := s.pool.length + s.spare

/-- Method `func (p Pool) Len() int`. -/
def Pool.Len (s : State) : Nat := s.pool.length

/-- Method `func (p Pool) Less(i, j int) bool`:
`p[i].pending < p[j].pending`. -/
def Pool.Less (s : State) (i j : Nat) : Option Bool :=
  match s.pool[i]?, s.pool[j]? with
  | some x, some y => some (decide ((s.mem x).pending < (s.mem y).pending))
  | _, _ => none

/-- Method `func (p *Pool) Swap(i, j int)`: exchange the two slots, then
`a[i].i = i` and `a[j].i = j` on the workers now stored there. -/
def Pool.Swap (s : State) (i j : Nat) : Option State :=
  match s.pool[i]?, s.pool[j]? with
  | some x, some y =>
    let a := (s.pool.set i y).set j x
    match a[i]?, a[j]? with
    | some ai, some aj =>
      some { s with pool := a, mem := setI (setI s.mem ai i) aj j }
    | _, _ => none
  | _, _ => none

/-- Method `func (p *Pool) Push(x interface{})`: reslice to `a[0:n+1]`, which
panics when no slot is left, store `w` in slot `n` and set `w.i = n`. -/
def Pool.Push (s : State) (w : Ptr) : Option State :=
  match s.spare with
  | 0 => none
  | r + 1 =>
    some { mem := setI s.mem w (s.pool.length : Int),
           pool := s.pool ++ [w],
           spare := r }

/-- Method `func (p *Pool) Pop() interface{}`: drop the last slot, set the
`i` field of the worker that was there to `-1` and return it. -/
def Pool.Pop (s : State) : Option (Ptr × State) :=
  match s.pool.getLast? with
  | none => none
  | some w =>
    some (w, { mem := setI s.mem w (-1),
               pool := s.pool.dropLast,
               spare := s.spare + 1 })

namespace heap

/-- Loop of `container/heap.up`: while `j` is not the root and is less than
its parent `i = (j - 1) / 2`, swap them and continue at `i`. -/
def upLoop : Nat → State → Nat → Option State
  | 0, _, _ => none
  | fuel + 1, s, j =>
    let i := (j - 1) / 2
    if i = j then some s
    else
      match Pool.Less s j i with
      | none => none
      | some false => some s
      | some true =>
        match Pool.Swap s i j with
        | none => none
        | some s1 => upLoop fuel s1 i

/-- Procedure `container/heap.up(h, j)`. -/
def up (s : State) (j : Nat) : Option State := upLoop (j + 1) s j

/-- Loop of `container/heap.down`: with `j` the smaller child of `i` below
`n`, stop when there is no child or the child is not less than `i`, otherwise
swap and continue at `j`. Returns the state and the final position. -/
def downLoop : Nat → State → Nat → Nat → Option (State × Nat)
  | 0, _, _, _ => none
  | fuel + 1, s, i, n =>
    let j1 := 2 * i + 1
    if n ≤ j1 then some (s, i)
    else
      match (if j1 + 1 < n then Pool.Less s (j1 + 1) j1 else some false) with
      | none => none
      | some b =>
        let j := if b then j1 + 1 else j1
        match Pool.Less s j i with
        | none => none
        | some false => some (s, i)
        | some true =>
          match Pool.Swap s i j with
          | none => none
          | some s1 => downLoop fuel s1 j n

/-- Procedure `container/heap.down(h, i0, n)`; the boolean is `i > i0`. -/
def down (s : State) (i0 n : Nat) : Option (State × Bool) :=
  match downLoop (n + 1) s i0 n with
  | none => none
  | some (s1, i) => some (s1, decide (i0 < i))

/-- Procedure `container/heap.Push(h, x)`: `h.Push(x)` then
`up(h, h.Len()-1)`. -/
def Push (s : State) (w : Ptr) : Option State :=
  match Pool.Push s w with
  | none => none
  | some s1 => up s1 (Pool.Len s1 - 1)

/-- Procedure `container/heap.Pop(h)`: with `n = h.Len() - 1`, `h.Swap(0, n)`,
`down(h, 0, n)`, then `h.Pop()`. On an empty pool `n = -1` and the swap
panics. -/
def Pop (s : State) : Option (Ptr × State) :=
  if Pool.Len s = 0 then none
  else
    let n := Pool.Len s - 1
    match Pool.Swap s 0 n with
    | none => none
    | some s1 =>
      match down s1 0 n with
      | none => none
      | some (s2, _) => Pool.Pop s2

/-- Procedure `container/heap.Remove(h, i)`: with `n = h.Len() - 1`, when
`n != i` swap `i` and `n`, sift the new occupant of `i` down below `n` and, if
it did not move, up; then `h.Pop()`. A negative `i` makes the swap (or, on an
empty pool, the reslice in `h.Pop`) panic. -/
def Remove (s : State) (i : Int) : Option (Ptr × State) :=
  let n : Int := (Pool.Len s : Int) - 1
  if n ≠ i then
    if i < 0 then none
    else
      match Pool.Swap s i.toNat n.toNat with
      | none => none
      | some s1 =>
        match down s1 i.toNat n.toNat with
        | none => none
        | some (s2, moved) =>
          if !moved then
            match up s2 i.toNat with
            | none => none
            | some s3 => Pool.Pop s3
          else Pool.Pop s2
  else Pool.Pop s

end heap

/-- Method `func (b *Balancer) dispatch(req Request)`: pop the least loaded
worker `w`, send it the request, `w.pending++`, push `w` back. The returned
pointer is the worker whose inbox received the request. -/
def Balancer.dispatch (s : State) : Option (Ptr × State) :=
  match heap.Pop s with
  | none => none
  | some (w, s1) =>
    let s2 : State := { s1 with mem := setPending s1.mem w ((s1.mem w).pending + 1) }
    match heap.Push s2 w with
    | none => none
    | some s3 => some (w, s3)

/-- Method `func (b *Balancer) completed(w *Worker)`: the `if false` branch is
dead; `w.pending--`, then `heap.Remove(&b.pool, w.i)` and
`heap.Push(&b.pool, w)`. -/
def Balancer.completed (s : State) (w : Ptr) : Option State :=
  if false = true then
    some { s with mem := setPending s.mem w ((s.mem w).pending - 1) }
  else
    let s1 : State := { s with mem := setPending s.mem w ((s.mem w).pending - 1) }
    match heap.Remove s1 (s1.mem w).i with
    | none => none
    | some (_, s2) => heap.Push s2 w

/-- Loop of `NewBalancer`: for `i` from `i` up to `n - 1`, allocate a worker
with zero fields at the fresh address `i` and `heap.Push` it. -/
def newLoop : Nat → Nat → State → Option State
  | 0, _, s => some s
  | k + 1, i, s =>
    let s1 : State := { s with mem := Function.update s.mem i ⟨0, 0⟩ }
    match heap.Push s1 i with
    | none => none
    | some s2 => newLoop k (i + 1) s2

/-- Function `NewBalancer` for a pool of `n` workers: `make(Pool, 0, n)`, then
the loop. -/
def NewBalancerN (n : Nat) : Option State :=
  newLoop n 0 { mem := fun _ => ⟨0, 0⟩, pool := [], spare := n }

/-- Function `NewBalancer`, with `n = nWorker`. -/
def NewBalancer : Option State := NewBalancerN nWorker

/-- The pending count of the worker at address `p`. -/
def pend (s : State) (p : Ptr) : Int := (s.mem p).pending

/-- The pending count of the worker in slot `k` (`0` beyond the length). -/
def key (s : State) (k : Nat) : Int :=
  match s.pool[k]? with
  | some p => (s.mem p).pending
  | none => 0

/-- Heap order of a key function below `n`: every position `k >= 1` carries a
key at least that of its parent `(k - 1) / 2`. -/
def HeapOn (f : Nat → Int) (n : Nat) : Prop :=
  ∀ k, k < n → 0 < k → f ((k - 1) / 2) ≤ f k

/-- The heap invariant of the pool:
`pool[(k-1)/2].pending <= pool[k].pending` for every position `k >= 1`. -/
def HeapInv (s : State) : Prop := HeapOn (key s) s.pool.length

/-- The index invariant of the pool: `pool[k].i = k` for every position. -/
def IdxInv (s : State) : Prop :=
  ∀ k, k < s.pool.length →
    (s.pool[k]?).map (fun p => (s.mem p).i) = some (k : Int)

instance (f : Nat → Int) (n : Nat) : Decidable (HeapOn f n) :=
  inferInstanceAs (Decidable (∀ k, k < n → 0 < k → f ((k - 1) / 2) ≤ f k))

instance (s : State) : Decidable (HeapInv s) :=
  inferInstanceAs (Decidable (HeapOn (key s) s.pool.length))

instance (s : State) : Decidable (IdxInv s) :=
  inferInstanceAs (Decidable (∀ k, k < s.pool.length →
    (s.pool[k]?).map (fun p => (s.mem p).i) = some (k : Int)))

/-- Sum of the pending counts over the pool. -/
def sumPending (s : State) : Int := (s.pool.map (pend s)).sum

/-! ## Specification vocabulary, runs and sample states -/

/-- The state left by a swap of two valid positions. -/
def swapped (s : State) (i j : Nat) (hi : i < s.pool.length)
    (hj : j < s.pool.length) : State :=
  { s with pool := (s.pool.set i s.pool[j]).set j s.pool[i],
           mem := setI (setI s.mem s.pool[j] i) s.pool[i] j }

/-- Exchange of the values of a function at two arguments. -/
def swapF (f : Nat → Int) (i j : Nat) : Nat → Int :=
  fun k => if k = i then f j else if k = j then f i else f k

/-- Heap order below `n` on every edge that does not touch position `i`,
together with the order between the parent of `i` and the children of `i`. -/
def HeapExcept (f : Nat → Int) (n i : Nat) : Prop :=
  (∀ k, k < n → 0 < k → k ≠ i → (k - 1) / 2 ≠ i → f ((k - 1) / 2) ≤ f k) ∧
  (∀ k, k < n → 0 < k → (k - 1) / 2 = i → 0 < i → f ((i - 1) / 2) ≤ f k)

/-- What `up` expects at `j`: only the edge between `j` and its parent may be
out of order. -/
def UpPre (f : Nat → Int) (n j : Nat) : Prop :=
  HeapExcept f n j ∧ ∀ k, k < n → 0 < k → (k - 1) / 2 = j → f j ≤ f k

/-- What `down` expects at `i`: only the edges between `i` and its children
may be out of order. -/
def DownPre (f : Nat → Int) (n i : Nat) : Prop :=
  HeapExcept f n i ∧ (i < n → 0 < i → f ((i - 1) / 2) ≤ f i)

/-- Position `j` holds a least child of `i` below `n`. -/
def MinChild (f : Nat → Int) (n i j : Nat) : Prop :=
  j < n ∧ (j - 1) / 2 = i ∧ 0 < j ∧ ∀ k, k < n → 0 < k → (k - 1) / 2 = i → f j ≤ f k

/-- What the procedures of `container/heap` leave untouched: the workers of
the pool as a multiset, the capacity, every pending count, every worker
outside the pool, and the index invariant of a pool of distinct workers. -/
structure Frame (s s1 : State) : Prop where
  perm : s1.pool.Perm s.pool
  spare : s1.spare = s.spare
  pending : ∀ p, (s1.mem p).pending = (s.mem p).pending
  outside : ∀ p, p ∉ s.pool → s1.mem p = s.mem p
  idx : s.pool.Nodup → IdxInv s → IdxInv s1

/-- The worker `w` has left the pool: the pool of `s` is the pool of `s1` plus
`w`, a slot is free again, `w.i = -1`, and nothing else changed. -/
structure Removed (s : State) (w : Ptr) (s1 : State) : Prop where
  perm : s.pool.Perm (s1.pool ++ [w])
  spare : s1.spare = s.spare + 1
  pending : ∀ p, (s1.mem p).pending = (s.mem p).pending
  outside : ∀ p, p ∉ s.pool → s1.mem p = s.mem p
  idxw : (s1.mem w).i = -1
  idx : s.pool.Nodup → IdxInv s → IdxInv s1

/-- The worker `w` has joined the pool: the pool of `s1` is the pool of `s`
plus `w`, one free slot is used, and nothing but the `i` fields of the pool
and of `w` changed. -/
structure Added (s : State) (w : Ptr) (s1 : State) : Prop where
  perm : s1.pool.Perm (s.pool ++ [w])
  spare : s1.spare + 1 = s.spare
  pending : ∀ p, (s1.mem p).pending = (s.mem p).pending
  outside : ∀ p, p ∉ s.pool → p ≠ w → s1.mem p = s.mem p
  idx : w ∉ s.pool → IdxInv s → IdxInv s1

/-- What a step of the balancer does to the state: the pool is permuted, its
capacity is kept, the pending count of `w` moves by `d` and no other, workers
outside the pool are untouched, and the index invariant is kept. -/
structure Step (s : State) (w : Ptr) (d : Int) (s3 : State) : Prop where
  perm : s3.pool.Perm s.pool
  spare : s3.spare = s.spare
  pending : ∀ p, (s3.mem p).pending =
    if p = w then (s.mem p).pending + d else (s.mem p).pending
  outside : ∀ p, p ∉ s.pool → p ≠ w → s3.mem p = s.mem p
  idx : IdxInv s → IdxInv s3

/-- The two events the loop of `Balancer.balance` serves: a request arrived
(`b.dispatch(req)`) or worker `w` reported on `b.done` (`b.completed(w)`). -/
inductive Event where
  | dispatch : Event
  | completed (w : Ptr) : Event
deriving DecidableEq, Repr

/-- One turn of the loop of `Balancer.balance` (without the printing). -/
def step (s : State) : Event → Option State
  | Event.dispatch => (Balancer.dispatch s).map (fun r => r.2)
  | Event.completed w => Balancer.completed s w

/-- The loop of `Balancer.balance` on a finite sequence of events. -/
def run (s : State) : List Event → Option State
  | [] => some s
  | e :: es =>
    match step s e with
    | none => none
    | some s1 => run s1 es

/-- Number of `dispatch` events. -/
def dispatched : List Event → Nat
  | [] => 0
  | Event.dispatch :: es => dispatched es + 1
  | Event.completed _ :: es => dispatched es

/-- Number of `completed` events. -/
def completions : List Event → Nat
  | [] => 0
  | Event.dispatch :: es => completions es
  | Event.completed _ :: es => completions es + 1

/-- `k` consecutive calls of `Balancer.dispatch`. -/
def dispatchN : Nat → State → Option State
  | 0, s => some s
  | k + 1, s =>
    match Balancer.dispatch s with
    | none => none
    | some (_, s1) => dispatchN k s1

/-- States reachable from `NewBalancer` when every completion answers a
request: `led w` counts the requests dispatched to `w` that `w` has not yet
reported, and `completed w` happens only when that count is positive. -/
inductive Reach : State → (Ptr → Nat) → Prop where
  | init (s0 : State) : NewBalancer = some s0 → Reach s0 (fun _ => 0)
  | dispatch (s : State) (led : Ptr → Nat) (w : Ptr) (s1 : State) :
      Reach s led → Balancer.dispatch s = some (w, s1) →
      Reach s1 (Function.update led w (led w + 1))
  | completed (s : State) (led : Ptr → Nat) (w : Ptr) (s1 : State) :
      Reach s led → 0 < led w → Balancer.completed s w = some s1 →
      Reach s1 (Function.update led w (led w - 1))

/-- A `Request`: the operation to run and the channel for its result. -/
structure Request where
  fn : Unit → Int
  c : Nat

/-- What a worker sends: a result on the reply channel `c` of a request, or
itself on the `done` channel. -/
inductive Send where
  | result (c : Nat) (v : Int) : Send
  | done (w : Ptr) : Send
deriving DecidableEq, Repr

/-- Method `func (w *Worker) work(done chan *Worker)` on the requests its
`range w.requests` loop receives, in the order received: for each `r`,
`r.c <- r.fn()` and then `done <- w`. The result is the sequence of sends. -/
def Worker.work (w : Ptr) : List Request → List Send
  | [] => []
  | r :: rs => Send.result r.c (r.fn ()) :: Send.done w :: Worker.work w rs

/-- The invariants every run of the balancer maintains. -/
structure Inv (s : State) : Prop where
  idx : IdxInv s
  heap : HeapInv s
  nonempty : 0 < s.pool.length

/-- A pool of five slots in which the worker at address `0` occupies two
slots; the worker at address `1` has five pending requests, the others none. -/
def aliased : State :=
  { mem := fun p => if p = 1 then ⟨5, 2⟩ else ⟨0, 0⟩, pool := [0, 0, 1, 2, 3], spare := 0 }

/-- Two idle workers. -/
def pair : State :=
  { mem := fun p => ⟨0, (p : Int)⟩, pool := [0, 1], spare := 0 }

/-- Three workers with one pending request each. -/
def trio : State :=
  { mem := fun p => ⟨1, (p : Int)⟩, pool := [0, 1, 2], spare := 0 }

/-- The pending counts of the pool differ by at most one. -/
def Balanced (s : State) : Prop :=
  ∀ p ∈ s.pool, ∀ q ∈ s.pool, pend s p ≤ pend s q + 1

/-- Capacities of the channels that `NewBalancer` makes: `done` is the
capacity of `b.done`, and `requests w` that of the inbox `w.requests` of the
worker at address `w` (`0` where no worker was allocated). -/
structure Chans where
  done : Nat
  requests : Ptr → Nat

/-- The channel side of the loop of `NewBalancer`: the worker allocated at
address `i` gets `requests: make(chan Request, nRequester)`. -/
def newChansLoop : Nat → Nat → (Ptr → Nat) → (Ptr → Nat)
  | 0, _, c => c
  | k + 1, i, c => newChansLoop k (i + 1) (Function.update c i nRequester)

/-- The channels of `NewBalancer` for `n` workers:
`done := make(chan *Worker, n)` and the inboxes made in the loop. -/
def NewBalancerChansN (n : Nat) : Chans :=
  { done := n, requests := newChansLoop n 0 (fun _ => 0) }

/-- The channels of `NewBalancer`, with `n = nWorker`. -/
def NewBalancerChans : Chans := NewBalancerChansN nWorker

/-- Three workers with 0, 4 and 6 pending requests in a pool with two free
slots; the worker at address `p` outside the pool has `p` pending requests. -/
def roomy : State :=
  { mem := fun p => if p = 0 then ⟨0, 0⟩ else if p = 1 then ⟨4, 1⟩ else if p = 2 then ⟨6, 2⟩
      else ⟨(p : Int), -1⟩,
    pool := [0, 1, 2], spare := 2 }

/-! ## Memory updates -/

@[simp] theorem setI_pending (m : Ptr → Worker) (w : Ptr) (v : Int) (p : Ptr) :
    (setI m w v p).pending = (m p).pending := by
  unfold setI
  by_cases h : p = w
  · subst h; simp
  · simp [Function.update_noteq h]

theorem setI_i (m : Ptr → Worker) (w : Ptr) (v : Int) (p : Ptr) :
    (setI m w v p).i = if p = w then v else (m p).i := by
  unfold setI
  by_cases h : p = w
  · subst h; simp
  · simp [Function.update_noteq h, h]

theorem setI_of_ne (m : Ptr → Worker) (w : Ptr) (v : Int) (p : Ptr) (h : p ≠ w) :
    setI m w v p = m p := by
  unfold setI; simp [Function.update_noteq h]

@[simp] theorem setPending_i (m : Ptr → Worker) (w : Ptr) (v : Int) (p : Ptr) :
    (setPending m w v p).i = (m p).i := by
  unfold setPending
  by_cases h : p = w
  · subst h; simp
  · simp [Function.update_noteq h]

theorem setPending_pending (m : Ptr → Worker) (w : Ptr) (v : Int) (p : Ptr) :
    (setPending m w v p).pending = if p = w then v else (m p).pending := by
  unfold setPending
  by_cases h : p = w
  · subst h; simp
  · simp [Function.update_noteq h, h]

/-! ## `Pool.Less` and `Pool.Swap` inside the bounds -/

theorem key_of_lt (s : State) {k : Nat} (h : k < s.pool.length) :
    key s k = (s.mem s.pool[k]).pending := by
  unfold key; simp [List.getElem?_eq_getElem h]

theorem Less_some (s : State) {i j : Nat} (hi : i < s.pool.length)
    (hj : j < s.pool.length) :
    Pool.Less s i j = some (decide (key s i < key s j)) := by
  unfold Pool.Less
  simp [List.getElem?_eq_getElem hi, List.getElem?_eq_getElem hj, key_of_lt, hi, hj]

theorem Swap_some (s : State) {i j : Nat} (hi : i < s.pool.length)
    (hj : j < s.pool.length) :
    Pool.Swap s i j = some (swapped s i j hi hj) := by
  unfold Pool.Swap swapped
  by_cases hij : i = j
  · subst hij
    simp [List.getElem?_eq_getElem hi, List.getElem?_set, hi]
  · have hji : j ≠ i := fun h => hij h.symm
    simp [List.getElem?_eq_getElem hi, List.getElem?_eq_getElem hj, List.getElem?_set,
      hi, hj, hij, hji]

/-! ## Effect of a swap -/

theorem swapped_length (s : State) (i j : Nat) (hi hj) :
    (swapped s i j hi hj).pool.length = s.pool.length := by
  simp [swapped]

theorem swapped_spare (s : State) (i j : Nat) (hi hj) :
    (swapped s i j hi hj).spare = s.spare := rfl

theorem swapped_pending (s : State) (i j : Nat) (hi hj) (p : Ptr) :
    ((swapped s i j hi hj).mem p).pending = (s.mem p).pending := by
  simp [swapped]

theorem swapped_getElem? (s : State) (i j : Nat) (hi hj) (k : Nat) :
    (swapped s i j hi hj).pool[k]? =
      if k = j then s.pool[i]? else if k = i then s.pool[j]? else s.pool[k]? := by
  simp only [swapped, List.getElem?_set, List.length_set]
  by_cases h1 : j = k
  · subst h1; simp [hj, List.getElem?_eq_getElem hi]
  · have h1' : ¬ k = j := fun h => h1 h.symm
    by_cases h2 : i = k
    · subst h2; simp [h1, h1', hi, List.getElem?_eq_getElem hj]
    · have h2' : ¬ k = i := fun h => h2 h.symm
      simp [h1, h1', h2, h2']

theorem swapped_key (s : State) (i j : Nat) (hi hj) :
    key (swapped s i j hi hj) = swapF (key s) i j := by
  funext k
  unfold key swapF
  rw [swapped_getElem?]
  by_cases h1 : k = j
  · subst h1
    by_cases h2 : k = i
    · subst h2; simp [swapped_pending]
    · simp [h2, swapped_pending]
  · by_cases h2 : k = i
    · subst h2; simp [h1, swapped_pending]
    · simp only [h1, h2, if_false]
      cases s.pool[k]? <;> simp [swapped_pending]

theorem swapped_mem_of_ne (s : State) (i j : Nat) (hi hj) (p : Ptr)
    (h1 : p ≠ s.pool[i]) (h2 : p ≠ s.pool[j]) :
    (swapped s i j hi hj).mem p = s.mem p := by
  simp [swapped, setI_of_ne _ _ _ _ h1, setI_of_ne _ _ _ _ h2]

theorem set_getElem_same (l : List Ptr) (i : Nat) (hi : i < l.length) :
    l.set i l[i] = l := by
  apply List.ext_getElem?
  intro k
  rw [List.getElem?_set]
  by_cases h : i = k
  · subst h; simp [hi]
  · simp [h]

theorem swapped_perm (s : State) (i j : Nat) (hi hj) :
    (swapped s i j hi hj).pool.Perm s.pool := by
  rw [List.perm_iff_count]
  intro b
  simp only [swapped]
  by_cases hij : i = j
  · subst hij
    simp [List.set_set, set_getElem_same _ _ hi]
  · have hj' : j < (s.pool.set i s.pool[j]).length := by simpa using hj
    rw [List.count_set _ _ _ _ hj', List.count_set _ _ _ _ hi]
    have hji : j ≠ i := fun h => hij h.symm
    simp only [List.getElem_set_ne hij]
    have hx : (if (s.pool[i] == b) = true then 1 else 0) ≤ s.pool.count b := by
      split
      · rename_i h
        have : s.pool[i] = b := by simpa using h
        have hm : b ∈ s.pool := this ▸ List.getElem_mem hi
        exact List.count_pos_iff.mpr hm
      · omega
    omega

/-! ## Heap order of key functions -/

theorem heapOn_of_up_down {f : Nat → Int} {n i : Nat} (hu : UpPre f n i)
    (hp : i < n → 0 < i → f ((i - 1) / 2) ≤ f i) : HeapOn f n := by
  obtain ⟨⟨h1, _⟩, h3⟩ := hu
  intro k hk hk0
  by_cases hki : k = i
  · subst hki; exact hp hk hk0
  · by_cases hpk : (k - 1) / 2 = i
    · have := h3 k hk hk0 hpk
      rw [hpk]; exact this
    · exact h1 k hk hk0 hki hpk

theorem heapExcept_of_heapOn {f : Nat → Int} {n : Nat} (h : HeapOn f n) (i : Nat)
    (hi : i < n) : HeapExcept f n i := by
  refine ⟨fun k hk hk0 _ _ => h k hk hk0, ?_⟩
  intro k hk hk0 hpk hi0
  have e1 := h k hk hk0
  have e2 := h i hi hi0
  rw [hpk] at e1
  omega

theorem upPre_root {f : Nat → Int} {n j : Nat} (h : UpPre f n j)
    (hj : (j - 1) / 2 = j) : HeapOn f n := by
  apply heapOn_of_up_down h
  intro _ h0
  omega

theorem upPre_stop {f : Nat → Int} {n j : Nat} (h : UpPre f n j)
    (hge : ¬ f j < f ((j - 1) / 2)) : HeapOn f n := by
  apply heapOn_of_up_down h
  intro _ _
  omega

theorem upPre_step {f : Nat → Int} {n j : Nat} (h : UpPre f n j) (hjn : j < n)
    (hne : (j - 1) / 2 ≠ j) (hlt : f j < f ((j - 1) / 2)) :
    UpPre (swapF f ((j - 1) / 2) j) n ((j - 1) / 2) := by
  obtain ⟨⟨h1, h2⟩, h3⟩ := h
  have hj0 : 0 < j := by omega
  have hij : (j - 1) / 2 < j := by omega
  generalize hi : (j - 1) / 2 = i at *
  have hin : i < n := by omega
  refine ⟨⟨?_, ?_⟩, ?_⟩
  · intro k hk hk0 hki hpk
    have hkj : k ≠ j := by
      intro e; subst e; exact hpk hi
    simp only [swapF, hki, hkj, hpk, if_false]
    by_cases hpj : (k - 1) / 2 = j
    · simp only [hpj, if_true]
      exact h2 k hk hk0 hpj hj0
    · simp only [hpj, if_false]
      exact h1 k hk hk0 hkj hpj
  · intro k hk hk0 hpk hi0
    have hpi1 : (i - 1) / 2 ≠ i := by omega
    have hpi2 : (i - 1) / 2 ≠ j := by omega
    have hki : k ≠ i := by omega
    have ei := h1 i hin hi0 (by omega) hpi2
    simp only [swapF, hpi1, hpi2, hki, if_false]
    by_cases hkj : k = j
    · simp only [hkj, if_true]; exact ei
    · simp only [hkj, if_false]
      have ek := h1 k hk hk0 hkj (by omega)
      rw [hpk] at ek
      omega
  · intro k hk hk0 hpk
    have hki : k ≠ i := by omega
    simp only [swapF, hki, if_true, if_false]
    by_cases hkj : k = j
    · simp only [hkj, if_true]; omega
    · simp only [hkj, if_false]
      have ek := h1 k hk hk0 hkj (by omega)
      rw [hpk] at ek
      omega

theorem downPre_nochild {f : Nat → Int} {n i : Nat} (h : HeapExcept f n i)
    (hn : n ≤ 2 * i + 1) : UpPre f n i := by
  refine ⟨h, ?_⟩
  intro k hk hk0 hpk
  omega

theorem downPre_stop {f : Nat → Int} {n i j : Nat} (h : HeapExcept f n i)
    (hm : MinChild f n i j) (hge : ¬ f j < f i) : UpPre f n i := by
  refine ⟨h, ?_⟩
  intro k hk hk0 hpk
  have := hm.2.2.2 k hk hk0 hpk
  omega

theorem downPre_step {f : Nat → Int} {n i j : Nat} (h : HeapExcept f n i)
    (hm : MinChild f n i j) (hlt : f j < f i) :
    DownPre (swapF f i j) n j := by
  obtain ⟨h1, h2⟩ := h
  obtain ⟨hjn, hpj, hj0, hmin⟩ := hm
  have hij : i < j := by omega
  have hji : j ≠ i := by omega
  refine ⟨⟨?_, ?_⟩, ?_⟩
  · intro k hk hk0 hkj hpk
    by_cases hki : k = i
    · subst hki
      have hp1 : (k - 1) / 2 ≠ k := by omega
      simp only [swapF, hp1, hpk, if_true, if_false]
      exact h2 j hjn hj0 hpj hk0
    · simp only [swapF, hki, hkj, hpk, if_false]
      by_cases hpi : (k - 1) / 2 = i
      · simp only [hpi, if_true]
        exact hmin k hk hk0 hpi
      · simp only [hpi, if_false]
        exact h1 k hk hk0 hki hpi
  · intro k hk hk0 hpk _
    have hki : k ≠ i := by omega
    have hkj : k ≠ j := by omega
    simp only [swapF, hpj, hki, hkj, if_true, if_false]
    have := h1 k hk hk0 hki (by omega)
    rw [hpk] at this
    exact this
  · intro _ _
    simp only [swapF, hpj, hji, if_true, if_false]
    omega

/-! ## The index invariant and the frame of the heap procedures -/

theorem idxInv_iff (s : State) :
    IdxInv s ↔ ∀ (k : Nat) (p : Ptr), s.pool[k]? = some p → (s.mem p).i = (k : Int) := by
  constructor
  · intro h k p hkp
    have hk : k < s.pool.length := by
      rcases List.getElem?_eq_some.mp hkp with ⟨hk, _⟩
      exact hk
    have := h k hk
    rw [hkp] at this
    simpa using this
  · intro h k hk
    have := h k s.pool[k] (List.getElem?_eq_getElem hk)
    simp [List.getElem?_eq_getElem hk, this]

theorem idxInv_nodup {s : State} (h : IdxInv s) : s.pool.Nodup := by
  rw [idxInv_iff] at h
  rw [List.nodup_iff_injective_getElem]
  intro a b hab
  have ha := h a.1 s.pool[a.1] (List.getElem?_eq_getElem a.2)
  have hb := h b.1 s.pool[b.1] (List.getElem?_eq_getElem b.2)
  have hab' : s.pool[a.1] = s.pool[b.1] := hab
  rw [hab'] at ha
  apply Fin.ext
  have : (a.1 : Int) = (b.1 : Int) := by rw [← ha, ← hb]
  exact_mod_cast this

theorem swapped_idxInv (s : State) (i j : Nat) (hi hj) (hnd : s.pool.Nodup)
    (h : IdxInv s) : IdxInv (swapped s i j hi hj) := by
  rw [idxInv_iff] at h ⊢
  intro k p hkp
  rw [swapped_getElem?] at hkp
  have hmem : ∀ q, ((swapped s i j hi hj).mem q).i =
      if q = s.pool[i] then (j : Int) else if q = s.pool[j] then (i : Int) else (s.mem q).i := by
    intro q
    simp [swapped, setI_i]
  rw [hmem]
  by_cases h1 : k = j
  · subst h1
    simp only [if_true, List.getElem?_eq_getElem hi, Option.some.injEq] at hkp
    simp [hkp]
  · simp only [h1, if_false] at hkp
    by_cases h2 : k = i
    · subst h2
      simp only [if_true, List.getElem?_eq_getElem hj, Option.some.injEq] at hkp
      have hne : p ≠ s.pool[k] := by
        intro e
        rw [← hkp] at e
        exact h1 ((hnd.getElem_inj_iff).mp e.symm)
      simp [hne, hkp]
    · simp only [h2, if_false] at hkp
      rcases List.getElem?_eq_some.mp hkp with ⟨hk, hkp'⟩
      have hne1 : p ≠ s.pool[i] := by
        intro e
        rw [← hkp'] at e
        exact h2 ((hnd.getElem_inj_iff).mp e)
      have hne2 : p ≠ s.pool[j] := by
        intro e
        rw [← hkp'] at e
        exact h1 ((hnd.getElem_inj_iff).mp e)
      simp only [hne1, hne2, if_false]
      exact h k p hkp

theorem Frame.refl (s : State) : Frame s s :=
  ⟨List.Perm.refl _, rfl, fun _ => rfl, fun _ _ => rfl, fun _ h => h⟩

theorem Frame.trans {s s1 s2 : State} (h1 : Frame s s1) (h2 : Frame s1 s2) :
    Frame s s2 where
  perm := h2.perm.trans h1.perm
  spare := h2.spare.trans h1.spare
  pending := fun p => (h2.pending p).trans (h1.pending p)
  outside := fun p hp => by
    rw [h2.outside p (fun hm => hp (h1.perm.mem_iff.mp hm)), h1.outside p hp]
  idx := fun hnd hi => h2.idx (h1.perm.nodup_iff.mpr hnd) (h1.idx hnd hi)

theorem Frame.length {s s1 : State} (h : Frame s s1) :
    s1.pool.length = s.pool.length := h.perm.length_eq

theorem swapped_frame (s : State) (i j : Nat) (hi hj) :
    Frame s (swapped s i j hi hj) where
  perm := swapped_perm s i j hi hj
  spare := rfl
  pending := swapped_pending s i j hi hj
  outside := fun p hp => by
    apply swapped_mem_of_ne
    · intro e; exact hp (e ▸ List.getElem_mem hi)
    · intro e; exact hp (e ▸ List.getElem_mem hj)
  idx := swapped_idxInv s i j hi hj

/-! ## `up` and `down` -/

theorem upLoop_spec : ∀ (fuel : Nat) (s : State) (j : Nat),
    j < s.pool.length → j < fuel →
    ∃ s1, heap.upLoop fuel s j = some s1 ∧ Frame s s1 ∧
      (∀ k, j < k → s1.pool[k]? = s.pool[k]?) ∧
      (∀ n, j < n → UpPre (key s) n j → HeapOn (key s1) n) := by
  intro fuel
  induction fuel with
  | zero => intro s j _ h; omega
  | succ fuel ih =>
    intro s j hj hf
    unfold heap.upLoop
    simp only []
    by_cases hroot : (j - 1) / 2 = j
    · rw [if_pos hroot]
      exact ⟨s, rfl, Frame.refl s, fun _ _ => rfl, fun _ _ h => upPre_root h hroot⟩
    · rw [if_neg hroot]
      have hi : (j - 1) / 2 < s.pool.length := by omega
      rw [Less_some s hj hi]
      by_cases hlt : key s j < key s ((j - 1) / 2)
      · simp only [hlt, decide_True]
        rw [Swap_some s hi hj]
        simp only []
        have hlen := swapped_length s ((j - 1) / 2) j hi hj
        obtain ⟨s1, he, hfr, hfix, hheap⟩ :=
          ih (swapped s ((j - 1) / 2) j hi hj) ((j - 1) / 2) (by omega) (by omega)
        refine ⟨s1, he, (swapped_frame s _ _ hi hj).trans hfr, ?_, ?_⟩
        · intro k hk
          rw [hfix k (by omega), swapped_getElem?]
          have h1 : k ≠ j := by omega
          have h2 : k ≠ (j - 1) / 2 := by omega
          simp [h1, h2]
        · intro n hn hpre
          have hh := hheap n (by omega)
          rw [swapped_key] at hh
          exact hh (upPre_step hpre hn hroot hlt)
      · simp only [hlt, decide_False]
        exact ⟨s, rfl, Frame.refl s, fun _ _ => rfl, fun _ _ h => upPre_stop h hlt⟩

theorem up_spec (s : State) (j : Nat) (hj : j < s.pool.length) :
    ∃ s1, heap.up s j = some s1 ∧ Frame s s1 ∧
      (∀ k, j < k → s1.pool[k]? = s.pool[k]?) ∧
      (∀ n, j < n → UpPre (key s) n j → HeapOn (key s1) n) :=
  upLoop_spec (j + 1) s j hj (by omega)

theorem minChild_choice (s : State) (n i : Nat) (hn : n ≤ s.pool.length)
    (hc : ¬ n ≤ 2 * i + 1) :
    ∃ b : Bool,
      (if 2 * i + 1 + 1 < n then Pool.Less s (2 * i + 1 + 1) (2 * i + 1) else some false)
        = some b ∧
      MinChild (key s) n i (if b then 2 * i + 1 + 1 else 2 * i + 1) := by
  by_cases h2 : 2 * i + 1 + 1 < n
  · rw [if_pos h2, Less_some s (by omega) (by omega)]
    refine ⟨_, rfl, ?_⟩
    by_cases hlt : key s (2 * i + 1 + 1) < key s (2 * i + 1)
    · simp only [hlt, decide_True, if_true]
      refine ⟨h2, by omega, by omega, ?_⟩
      intro k hk hk0 hpk
      have : k = 2 * i + 1 ∨ k = 2 * i + 1 + 1 := by omega
      rcases this with e | e <;> subst e <;> omega
    · simp only [hlt, decide_False, Bool.false_eq_true, if_false]
      refine ⟨by omega, by omega, by omega, ?_⟩
      intro k hk hk0 hpk
      have : k = 2 * i + 1 ∨ k = 2 * i + 1 + 1 := by omega
      rcases this with e | e <;> subst e <;> omega
  · rw [if_neg h2]
    refine ⟨false, rfl, ?_⟩
    simp only [Bool.false_eq_true, if_false]
    refine ⟨by omega, by omega, by omega, ?_⟩
    intro k hk hk0 hpk
    have : k = 2 * i + 1 := by omega
    subst this
    exact le_refl _

theorem downLoop_spec : ∀ (fuel : Nat) (s : State) (i n : Nat),
    n ≤ s.pool.length → 0 < fuel → n < fuel + i →
    ∃ s1 i1, heap.downLoop fuel s i n = some (s1, i1) ∧ Frame s s1 ∧
      (∀ k, n ≤ k → s1.pool[k]? = s.pool[k]?) ∧
      (∀ k, k < i → s1.pool[k]? = s.pool[k]?) ∧
      i ≤ i1 ∧ (i1 = i → s1 = s) ∧
      (HeapExcept (key s) n i → i1 = i → UpPre (key s) n i) ∧
      (HeapExcept (key s) n i → i < i1 → HeapOn (key s1) n) ∧
      (DownPre (key s) n i → HeapOn (key s1) n) := by
  intro fuel
  induction fuel with
  | zero => intro s i n _ h; omega
  | succ fuel ih =>
    intro s i n hn _ hf
    unfold heap.downLoop
    simp only []
    by_cases hc : n ≤ 2 * i + 1
    · rw [if_pos hc]
      refine ⟨s, i, rfl, Frame.refl s, fun _ _ => rfl, fun _ _ => rfl, le_refl _,
        fun _ => rfl, fun h _ => downPre_nochild h hc, fun _ h => absurd h (lt_irrefl _), ?_⟩
      intro h
      exact heapOn_of_up_down (downPre_nochild h.1 hc) h.2
    · rw [if_neg hc]
      obtain ⟨b, hb, hmin⟩ := minChild_choice s n i hn hc
      rw [hb]
      simp only []
      generalize hjdef : (if b = true then 2 * i + 1 + 1 else 2 * i + 1) = j at hmin ⊢
      have hjn : j < n := hmin.1
      have hij : i < j := by have := hmin.2.1; have := hmin.2.2.1; omega
      have hi : i < s.pool.length := by omega
      have hj : j < s.pool.length := by omega
      rw [Less_some s hj hi]
      by_cases hlt : key s j < key s i
      · simp only [hlt, decide_True]
        rw [Swap_some s hi hj]
        simp only []
        have hlen := swapped_length s i j hi hj
        obtain ⟨s1, i1, he, hfr, hfixn, hfixi, hle, _, _, _, hheap⟩ :=
          ih (swapped s i j hi hj) j n (by omega) (by omega) (by omega)
        have hstep : HeapExcept (key s) n i → HeapOn (key s1) n := by
          intro hex
          rw [swapped_key] at hheap
          exact hheap (downPre_step hex hmin hlt)
        refine ⟨s1, i1, he, (swapped_frame s _ _ hi hj).trans hfr, ?_, ?_, by omega,
          fun e => by omega, fun _ e => by omega, fun hex _ => hstep hex,
          fun hpre => hstep hpre.1⟩
        · intro k hk
          rw [hfixn k hk, swapped_getElem?]
          have h1 : k ≠ j := by omega
          have h2 : k ≠ i := by omega
          simp [h1, h2]
        · intro k hk
          rw [hfixi k (by omega), swapped_getElem?]
          have h1 : k ≠ j := by omega
          have h2 : k ≠ i := by omega
          simp [h1, h2]
      · simp only [hlt, decide_False]
        refine ⟨s, i, rfl, Frame.refl s, fun _ _ => rfl, fun _ _ => rfl, le_refl _,
          fun _ => rfl, fun h _ => downPre_stop h hmin hlt,
          fun _ h => absurd h (lt_irrefl _), ?_⟩
        intro h
        exact heapOn_of_up_down (downPre_stop h.1 hmin hlt) h.2

/-! ## `Pool.Pop`, `Pool.Push` and the procedures built on them -/

theorem heapExcept_swap_last {f : Nat → Int} {n i : Nat}
    (h : HeapExcept f (n + 1) i) : HeapExcept (swapF f i n) n i := by
  obtain ⟨h1, h2⟩ := h
  refine ⟨?_, ?_⟩
  · intro k hk hk0 hki hpk
    have e1 : (k - 1) / 2 ≠ n := by omega
    have e2 : k ≠ n := by omega
    simp only [swapF, hki, hpk, e1, e2, if_false]
    exact h1 k (by omega) hk0 hki hpk
  · intro k hk hk0 hpk hi0
    have e1 : (i - 1) / 2 ≠ i := by omega
    have e2 : (i - 1) / 2 ≠ n := by omega
    have e3 : k ≠ i := by omega
    have e4 : k ≠ n := by omega
    simp only [swapF, e1, e2, e3, e4, if_false]
    exact h2 k (by omega) hk0 hpk hi0

theorem heapOn_of_heapExcept_last {f : Nat → Int} {n : Nat}
    (h : HeapExcept f (n + 1) n) : HeapOn f n := by
  intro k hk hk0
  exact h.1 k (by omega) hk0 (by omega) (by omega)

theorem PoolPop_of_concat (s : State) (ys : List Ptr) (w : Ptr)
    (h : s.pool = ys ++ [w]) :
    Pool.Pop s = some (w, ⟨setI s.mem w (-1), ys, s.spare + 1⟩) := by
  unfold Pool.Pop
  rw [h]
  simp

theorem concat_of_last {l : List Ptr} {w : Ptr} (h : l[l.length - 1]? = some w) :
    ∃ ys, l = ys ++ [w] := by
  rw [← List.getLast?_eq_getElem?] at h
  exact List.getLast?_eq_some_iff.mp h

/-- `Pool.Pop` after a permutation of the pool that left `w` in the last
slot. -/
theorem PoolPop_removed {s s2 : State} {ys : List Ptr} {w : Ptr}
    (hfr : Frame s s2) (h2 : s2.pool = ys ++ [w]) :
    Removed s w ⟨setI s2.mem w (-1), ys, s2.spare + 1⟩ ∧
    ∀ k, k < ys.length →
      key ⟨setI s2.mem w (-1), ys, s2.spare + 1⟩ k = key s2 k := by
  have hperm : s.pool.Perm (ys ++ [w]) := h2 ▸ hfr.perm.symm
  have hw : w ∈ s.pool := hperm.mem_iff.mpr (by simp)
  refine ⟨⟨hperm, by simp [hfr.spare], ?_, ?_, ?_, ?_⟩, ?_⟩
  · intro p; simp [hfr.pending p]
  · intro p hp
    have hne : p ≠ w := fun e => hp (e ▸ hw)
    simp only [setI_of_ne _ _ _ _ hne]
    exact hfr.outside p hp
  · simp [setI_i]
  · intro hnd hidx
    have h2i := hfr.idx hnd hidx
    have hnd2 : (ys ++ [w]).Nodup := hperm.nodup_iff.mp hnd
    rw [idxInv_iff] at h2i ⊢
    intro k p hkp
    simp only at hkp
    have hk : k < ys.length := (List.getElem?_eq_some.mp hkp).1
    have hpy : p ∈ ys := List.mem_iff_getElem?.mpr ⟨k, hkp⟩
    have hne : p ≠ w := by
      intro e
      subst e
      have := List.nodup_append.mp hnd2
      exact this.2.2 hpy (by simp)
    simp only [setI_of_ne _ _ _ _ hne]
    apply h2i
    rw [h2, List.getElem?_append_left hk]
    exact hkp
  · intro k hk
    unfold key
    simp only [h2, List.getElem?_append_left hk]
    cases ys[k]? <;> simp

theorem down_eq (s : State) (i n : Nat) {s1 : State} {i1 : Nat}
    (h : heap.downLoop (n + 1) s i n = some (s1, i1)) :
    heap.down s i n = some (s1, decide (i < i1)) := by
  unfold heap.down
  rw [h]

theorem heapPop_spec (s : State) (hne : 0 < s.pool.length) :
    ∃ w s1, heap.Pop s = some (w, s1) ∧ s.pool[0]? = some w ∧ Removed s w s1 ∧
      (HeapInv s → HeapInv s1) := by
  have hn : s.pool.length - 1 < s.pool.length := by omega
  unfold heap.Pop Pool.Len
  rw [if_neg (by omega)]
  simp only []
  rw [Swap_some s hne hn]
  simp only []
  have hlen := swapped_length s 0 (s.pool.length - 1) hne hn
  obtain ⟨s2, i1, he, hfr, hfixn, _, _, _, _, _, hheap⟩ :=
    downLoop_spec (s.pool.length - 1 + 1) (swapped s 0 (s.pool.length - 1) hne hn) 0
      (s.pool.length - 1) (by omega) (by omega) (by omega)
  rw [down_eq _ _ _ he]
  simp only []
  have hfr2 : Frame s s2 := (swapped_frame s _ _ hne hn).trans hfr
  have hlast : s2.pool[s2.pool.length - 1]? = some s.pool[0] := by
    rw [hfr2.length, hfixn _ (le_refl _), swapped_getElem?]
    simp [List.getElem?_eq_getElem hne]
  obtain ⟨ys, hys⟩ := concat_of_last hlast
  rw [PoolPop_of_concat s2 ys _ hys]
  obtain ⟨hrem, hkey⟩ := PoolPop_removed hfr2 hys
  have hylen : ys.length = s.pool.length - 1 := by
    have := hfr2.length
    rw [hys] at this
    simp at this
    omega
  refine ⟨_, _, rfl, List.getElem?_eq_getElem hne, hrem, ?_⟩
  intro hinv
  have hpre : DownPre (key (swapped s 0 (s.pool.length - 1) hne hn))
      (s.pool.length - 1) 0 := by
    rw [swapped_key]
    refine ⟨heapExcept_swap_last ?_, fun _ h => absurd h (lt_irrefl _)⟩
    have : s.pool.length - 1 + 1 = s.pool.length := by omega
    rw [this]
    exact heapExcept_of_heapOn hinv 0 hne
  have h2 := hheap hpre
  show HeapOn _ ys.length
  rw [hylen]
  intro k hk hk0
  rw [hkey k (by omega), hkey ((k - 1) / 2) (by omega)]
  exact h2 k hk hk0

theorem heapRemove_spec (s : State) (i : Nat) (hi : i < s.pool.length) :
    ∃ w s1, heap.Remove s (i : Int) = some (w, s1) ∧ s.pool[i]? = some w ∧
      Removed s w s1 ∧ (HeapExcept (key s) s.pool.length i → HeapInv s1) := by
  have hn : s.pool.length - 1 < s.pool.length := by omega
  have hsucc : s.pool.length - 1 + 1 = s.pool.length := by omega
  unfold heap.Remove Pool.Len
  simp only []
  by_cases hin : ((s.pool.length : Int) - 1) = (i : Int)
  · -- the worker sits in the last slot
    have hin' : i = s.pool.length - 1 := by omega
    rw [if_neg (by simpa using hin)]
    have hlast : s.pool[s.pool.length - 1]? = some s.pool[i] := by
      subst hin'; exact List.getElem?_eq_getElem hn
    obtain ⟨ys, hys⟩ := concat_of_last hlast
    rw [PoolPop_of_concat s ys _ hys]
    obtain ⟨hrem, hkey⟩ := PoolPop_removed (Frame.refl s) hys
    have hylen : ys.length = s.pool.length - 1 := by
      rw [hys]; simp
    refine ⟨_, _, rfl, List.getElem?_eq_getElem hi, hrem, ?_⟩
    intro hex
    show HeapOn _ ys.length
    rw [hylen]
    rw [← hsucc, hin'] at hex
    have h2 := heapOn_of_heapExcept_last hex
    intro k hk hk0
    rw [hkey k (by omega), hkey ((k - 1) / 2) (by omega)]
    exact h2 k hk hk0
  · have hin' : i < s.pool.length - 1 := by omega
    rw [if_pos (by simpa using hin)]
    rw [if_neg (by omega)]
    have e1 : (i : Int).toNat = i := by simp
    have e2 : ((s.pool.length : Int) - 1).toNat = s.pool.length - 1 := by omega
    rw [e1, e2, Swap_some s hi hn]
    simp only []
    have hlen := swapped_length s i (s.pool.length - 1) hi hn
    obtain ⟨s2, i1, he, hfr, hfixn, _, hle, hsame, hstay, hmoved, _⟩ :=
      downLoop_spec (s.pool.length - 1 + 1) (swapped s i (s.pool.length - 1) hi hn) i
        (s.pool.length - 1) (by omega) (by omega) (by omega)
    rw [down_eq _ _ _ he]
    simp only []
    have hfr2 : Frame s s2 := (swapped_frame s _ _ hi hn).trans hfr
    have hlast2 : s2.pool[s.pool.length - 1]? = some s.pool[i] := by
      rw [hfixn _ (le_refl _), swapped_getElem?]
      simp [List.getElem?_eq_getElem hi]
    have hex1 : HeapExcept (key s) s.pool.length i →
        HeapExcept (key (swapped s i (s.pool.length - 1) hi hn)) (s.pool.length - 1) i := by
      intro hex
      rw [swapped_key]
      apply heapExcept_swap_last
      rw [hsucc]; exact hex
    by_cases hmv : i < i1
    · -- the new occupant of slot `i` moved down
      simp only [hmv, decide_True, Bool.not_true, Bool.false_eq_true, if_false]
      have hlast : s2.pool[s2.pool.length - 1]? = some s.pool[i] := by
        rw [hfr2.length]; exact hlast2
      obtain ⟨ys, hys⟩ := concat_of_last hlast
      rw [PoolPop_of_concat s2 ys _ hys]
      obtain ⟨hrem, hkey⟩ := PoolPop_removed hfr2 hys
      have hylen : ys.length = s.pool.length - 1 := by
        have := hfr2.length
        rw [hys] at this
        simp at this
        omega
      refine ⟨_, _, rfl, List.getElem?_eq_getElem hi, hrem, ?_⟩
      intro hex
      have h2 := hmoved (hex1 hex) hmv
      show HeapOn _ ys.length
      rw [hylen]
      intro k hk hk0
      rw [hkey k (by omega), hkey ((k - 1) / 2) (by omega)]
      exact h2 k hk hk0
    · -- it stayed: sift it up
      have hi1 : i1 = i := by omega
      simp only [hmv, decide_False, Bool.not_false, if_true]
      have hs2 : s2 = swapped s i (s.pool.length - 1) hi hn := hsame hi1
      have hi2 : i < s2.pool.length := by rw [hfr2.length]; exact hi
      obtain ⟨s3, he3, hfr3, hfix3, hheap3⟩ := up_spec s2 i hi2
      rw [he3]
      simp only []
      have hfr23 : Frame s s3 := hfr2.trans hfr3
      have hlast : s3.pool[s3.pool.length - 1]? = some s.pool[i] := by
        rw [hfr23.length, hfix3 _ hin']; exact hlast2
      obtain ⟨ys, hys⟩ := concat_of_last hlast
      rw [PoolPop_of_concat s3 ys _ hys]
      obtain ⟨hrem, hkey⟩ := PoolPop_removed hfr23 hys
      have hylen : ys.length = s.pool.length - 1 := by
        have := hfr23.length
        rw [hys] at this
        simp at this
        omega
      refine ⟨_, _, rfl, List.getElem?_eq_getElem hi, hrem, ?_⟩
      intro hex
      have hup := hstay (hex1 hex) hi1
      rw [← hs2] at hup
      have h2 := hheap3 (s.pool.length - 1) hin' hup
      show HeapOn _ ys.length
      rw [hylen]
      intro k hk hk0
      rw [hkey k (by omega), hkey ((k - 1) / 2) (by omega)]
      exact h2 k hk hk0

theorem PoolPush_some (s : State) (w : Ptr) (hsp : 0 < s.spare) :
    Pool.Push s w =
      some ⟨setI s.mem w (s.pool.length : Int), s.pool ++ [w], s.spare - 1⟩ := by
  unfold Pool.Push
  cases h : s.spare with
  | zero => omega
  | succ r => simp

theorem key_PoolPush (s : State) (w : Ptr) (k : Nat) (hk : k < s.pool.length) :
    key ⟨setI s.mem w (s.pool.length : Int), s.pool ++ [w], s.spare - 1⟩ k = key s k := by
  unfold key
  simp only [List.getElem?_append_left hk]
  cases s.pool[k]? <;> simp

theorem heapPush_spec (s : State) (w : Ptr) (hsp : 0 < s.spare) :
    ∃ s1, heap.Push s w = some s1 ∧ Added s w s1 ∧ (HeapInv s → HeapInv s1) := by
  unfold heap.Push
  rw [PoolPush_some s w hsp]
  simp only [Pool.Len, List.length_append, List.length_singleton, Nat.add_sub_cancel]
  obtain ⟨s1, he, hfr, _, hheap⟩ :=
    up_spec ⟨setI s.mem w (s.pool.length : Int), s.pool ++ [w], s.spare - 1⟩
      s.pool.length (by simp)
  rw [he]
  refine ⟨s1, rfl, ⟨hfr.perm, ?_, ?_, ?_, ?_⟩, ?_⟩
  · rw [hfr.spare]; show s.spare - 1 + 1 = s.spare; omega
  · intro p; rw [hfr.pending p]; simp
  · intro p hp hne
    rw [hfr.outside p (by simp [hp, hne])]
    exact setI_of_ne _ _ _ _ hne
  · intro hw hidx
    have hnd := idxInv_nodup hidx
    apply hfr.idx
    · show (s.pool ++ [w]).Nodup
      rw [List.nodup_append]
      refine ⟨hnd, by simp, ?_⟩
      intro a ha hb
      simp at hb
      subst hb
      exact hw ha
    · rw [idxInv_iff] at hidx ⊢
      intro k p hkp
      simp only at hkp
      by_cases hk : k < s.pool.length
      · rw [List.getElem?_append_left hk] at hkp
        have hne : p ≠ w := by
          intro e; subst e
          exact hw (List.mem_iff_getElem?.mpr ⟨k, hkp⟩)
        simp only [setI_of_ne _ _ _ _ hne]
        exact hidx k p hkp
      · have hk2 : k < (s.pool ++ [w]).length := (List.getElem?_eq_some.mp hkp).1
        simp at hk2
        have hk3 : k = s.pool.length := by omega
        subst hk3
        rw [List.getElem?_concat_length] at hkp
        simp only [Option.some.injEq] at hkp
        subst hkp
        simp [setI_i]
  · intro hinv
    have hfl := hfr.length
    simp only [List.length_append, List.length_singleton] at hfl
    show HeapOn _ s1.pool.length
    rw [hfl]
    apply hheap _ (by omega)
    refine ⟨⟨?_, ?_⟩, ?_⟩
    · intro k hk hk0 hkn hpk
      rw [key_PoolPush s w k (by omega), key_PoolPush s w _ (by omega)]
      exact hinv k (by omega) hk0
    · intro k hk hk0 hpk _; omega
    · intro k hk hk0 hpk; omega

/-! ## `Balancer.dispatch` and `Balancer.completed` -/

theorem idxInv_setPending {s : State} (w : Ptr) (v : Int) (h : IdxInv s) :
    IdxInv { s with mem := setPending s.mem w v } := by
  rw [idxInv_iff] at h ⊢
  intro k p hkp
  simp only [setPending_i]
  exact h k p hkp

theorem key_setPending_of_ne (s : State) (w : Ptr) (v : Int) (k : Nat)
    (h : s.pool[k]? ≠ some w) :
    key { s with mem := setPending s.mem w v } k = key s k := by
  unfold key
  simp only
  cases hk : s.pool[k]? with
  | none => rfl
  | some p =>
    have hne : p ≠ w := by
      intro e; subst e; exact h hk
    simp [setPending_pending, hne]

theorem not_mem_of_removed {s s1 : State} {w : Ptr} (h : Removed s w s1)
    (hnd : s.pool.Nodup) : w ∉ s1.pool := by
  have hnd2 : (s1.pool ++ [w]).Nodup := h.perm.nodup_iff.mp hnd
  intro hw
  exact (List.nodup_append.mp hnd2).2.2 hw (by simp)

theorem dispatch_spec (s : State) (hne : 0 < s.pool.length) :
    ∃ w s3, Balancer.dispatch s = some (w, s3) ∧ s.pool[0]? = some w ∧
      Step s w 1 s3 ∧ (s.pool.Nodup → HeapInv s → HeapInv s3) := by
  obtain ⟨w, s1, hpop, hw0, hrem, hheap1⟩ := heapPop_spec s hne
  obtain ⟨s3, hpush, hadd, hheap3⟩ :=
    heapPush_spec { s1 with mem := setPending s1.mem w ((s1.mem w).pending + 1) } w
      (by show 0 < s1.spare; rw [hrem.spare]; omega)
  have hwmem : w ∈ s.pool := List.mem_iff_getElem?.mpr ⟨0, hw0⟩
  refine ⟨w, s3, ?_, hw0, ⟨?_, ?_, ?_, ?_, ?_⟩, ?_⟩
  · unfold Balancer.dispatch
    rw [hpop]
    simp only []
    rw [hpush]
  · exact hadd.perm.trans hrem.perm.symm
  · have h1 := hadd.spare
    have h2 := hrem.spare
    simp only at h1
    omega
  · intro p
    rw [hadd.pending p]
    simp only [setPending_pending]
    by_cases hp : p = w
    · subst hp; simp [hrem.pending p]
    · simp [hp, hrem.pending p]
  · intro p hp hpw
    have hp1 : p ∉ s1.pool := fun hm =>
      hp (hrem.perm.mem_iff.mpr (List.mem_append_left _ hm))
    rw [hadd.outside p hp1 hpw]
    simp only [setPending, Function.update_noteq hpw]
    exact hrem.outside p hp
  · intro hidx
    have hnd := idxInv_nodup hidx
    have hnot : w ∉ s1.pool := not_mem_of_removed hrem hnd
    exact hadd.idx hnot (idxInv_setPending _ _ (hrem.idx hnd hidx))
  · intro hnd hinv
    apply hheap3
    have hnot := not_mem_of_removed hrem hnd
    have h1 := hheap1 hinv
    intro k hk hk0
    have e : ∀ j, s1.pool[j]? ≠ some w := fun j hj =>
      hnot (List.mem_iff_getElem?.mpr ⟨j, hj⟩)
    rw [key_setPending_of_ne s1 w _ k (e k), key_setPending_of_ne s1 w _ _ (e _)]
    exact h1 k hk hk0

theorem completed_spec (s : State) (w : Ptr) (hidx : IdxInv s) (hw : w ∈ s.pool) :
    ∃ s3, Balancer.completed s w = some s3 ∧ Step s w (-1) s3 ∧
      (HeapInv s → HeapInv s3) := by
  have hnd := idxInv_nodup hidx
  obtain ⟨k, hk⟩ := List.mem_iff_getElem?.mp hw
  have hklt : k < s.pool.length := (List.getElem?_eq_some.mp hk).1
  have hwi : (s.mem w).i = (k : Int) := (idxInv_iff s).mp hidx k w hk
  have hidx1 : IdxInv { s with mem := setPending s.mem w ((s.mem w).pending - 1) } :=
    idxInv_setPending _ _ hidx
  obtain ⟨w1, s2, hrm, hw1, hrem, hheap2⟩ :=
    heapRemove_spec { s with mem := setPending s.mem w ((s.mem w).pending - 1) } k hklt
  have hww : w1 = w := by
    simp only at hw1
    rw [hk] at hw1
    exact (Option.some.inj hw1).symm
  subst hww
  obtain ⟨s3, hpush, hadd, hheap3⟩ :=
    heapPush_spec s2 w1 (by rw [hrem.spare]; omega)
  have hnot : w1 ∉ s2.pool := not_mem_of_removed hrem hnd
  refine ⟨s3, ?_, ⟨?_, ?_, ?_, ?_, ?_⟩, ?_⟩
  · unfold Balancer.completed
    simp only [Bool.false_eq_true, if_false, setPending_i, hwi]
    rw [hrm]
    simp only []
    exact hpush
  · exact hadd.perm.trans hrem.perm.symm
  · have h1 := hadd.spare
    have h2 := hrem.spare
    simp only at h2
    omega
  · intro p
    rw [hadd.pending p, hrem.pending p]
    simp only [setPending_pending]
    by_cases hp : p = w1
    · subst hp; simp; omega
    · simp [hp]
  · intro p hp hpw
    have hp1 : p ∉ s2.pool := fun hm =>
      hp (hrem.perm.mem_iff.mpr (List.mem_append_left _ hm))
    rw [hadd.outside p hp1 hpw, hrem.outside p hp]
    simp only [setPending, Function.update_noteq hpw]
  · intro _
    exact hadd.idx hnot (hrem.idx hnd hidx1)
  · intro hinv
    apply hheap3
    apply hheap2
    have e : ∀ j, j ≠ k → s.pool[j]? ≠ some w1 := by
      intro j hjk hj
      rcases List.getElem?_eq_some.mp hj with ⟨hjl, hje⟩
      rcases List.getElem?_eq_some.mp hk with ⟨hkl, hke⟩
      exact hjk ((hnd.getElem_inj_iff).mp (hje.trans hke.symm))
    refine ⟨?_, ?_⟩
    · intro j hj hj0 hjk hpj
      rw [key_setPending_of_ne s w1 _ j (e j hjk), key_setPending_of_ne s w1 _ _ (e _ hpj)]
      exact hinv j hj hj0
    · intro j hj hj0 hpj hk0
      have hjk : j ≠ k := by omega
      have hpk : (k - 1) / 2 ≠ k := by omega
      rw [key_setPending_of_ne s w1 _ j (e j hjk), key_setPending_of_ne s w1 _ _ (e _ hpk)]
      have a1 := hinv j hj hj0
      have a2 := hinv k hklt hk0
      rw [hpj] at a1
      omega

/-! ## Auxiliary facts for the runs -/

theorem key_eq_pend (s : State) (k : Nat) (hk : k < s.pool.length) :
    key s k = pend s s.pool[k] := key_of_lt s hk

theorem heapOn_root_le {f : Nat → Int} {n : Nat} (h : HeapOn f n) :
    ∀ k, k < n → f 0 ≤ f k := by
  intro k
  induction k using Nat.strong_induction_on with
  | _ k ih =>
    intro hk
    by_cases hk0 : k = 0
    · subst hk0; exact le_refl _
    · have h1 := h k hk (by omega)
      have h2 := ih ((k - 1) / 2) (by omega) (by omega)
      omega

theorem root_le_of_heapInv {s : State} (h : HeapInv s) {w : Ptr}
    (hw : s.pool[0]? = some w) : ∀ p ∈ s.pool, pend s w ≤ pend s p := by
  intro p hp
  obtain ⟨k, hk⟩ := List.mem_iff_getElem?.mp hp
  rcases List.getElem?_eq_some.mp hk with ⟨hkl, hke⟩
  rcases List.getElem?_eq_some.mp hw with ⟨h0l, h0e⟩
  have := heapOn_root_le h k hkl
  rw [key_eq_pend s k hkl, key_eq_pend s 0 h0l, hke, h0e] at this
  exact this

theorem heapInv_of_const {s : State} (c : Int) (h : ∀ p ∈ s.pool, pend s p = c) :
    HeapInv s := by
  intro k hk hk0
  have hp : (k - 1) / 2 < s.pool.length := by omega
  rw [key_eq_pend s k hk, key_eq_pend s _ hp,
    h _ (List.getElem_mem hk), h _ (List.getElem_mem hp)]

theorem sum_map_update (l : List Ptr) (g g1 : Ptr → Int) (w : Ptr) (d : Int)
    (hnd : l.Nodup) (hw : w ∈ l)
    (hg : ∀ p, g1 p = if p = w then g p + d else g p) :
    (l.map g1).sum = (l.map g).sum + d := by
  induction l with
  | nil => simp at hw
  | cons a t ih =>
    rw [List.nodup_cons] at hnd
    simp only [List.map_cons, List.sum_cons]
    by_cases ha : a = w
    · subst ha
      have ht : t.map g1 = t.map g := by
        apply List.map_congr_left
        intro p hp
        have : p ≠ a := fun e => hnd.1 (e ▸ hp)
        simp [hg, this]
      rw [ht, hg a]
      simp
      omega
    · have hwt : w ∈ t := by
        rcases List.mem_cons.mp hw with e | e
        · exact absurd e.symm ha
        · exact e
      rw [ih hnd.2 hwt, hg a]
      simp [ha]
      omega

theorem sumPending_step {s s1 : State} {w : Ptr} {d : Int} (h : Step s w d s1)
    (hnd : s.pool.Nodup) (hw : w ∈ s.pool) :
    sumPending s1 = sumPending s + d := by
  unfold sumPending
  rw [(h.perm.map (pend s1)).sum_eq]
  exact sum_map_update s.pool (pend s) (pend s1) w d hnd hw h.pending

/-! ## `NewBalancer` -/

theorem newLoop_spec : ∀ (k i : Nat) (s : State), k ≤ s.spare →
    (∀ p, pend s p = 0) → IdxInv s → (∀ p : Nat, p ∈ s.pool → p < i) →
    ∃ s1, newLoop k i s = some s1 ∧ (∀ p, pend s1 p = 0) ∧ IdxInv s1 ∧
      s1.pool.length = s.pool.length + k ∧ s1.spare + k = s.spare ∧
      (∀ p : Nat, p ∈ s1.pool → p < i + k) := by
  intro k
  induction k with
  | zero =>
    intro i s _ h0 hidx hlt
    exact ⟨s, rfl, h0, hidx, rfl, rfl, hlt⟩
  | succ k ih =>
    intro i s hsp h0 hidx hlt
    unfold newLoop
    simp only []
    have hi : i ∉ s.pool := fun hm => lt_irrefl _ (hlt i hm)
    have hidx1 : IdxInv { s with mem := Function.update s.mem i ⟨0, 0⟩ } := by
      rw [idxInv_iff] at hidx ⊢
      intro j p hjp
      simp only at hjp
      have hne : p ≠ i := fun e => hi (e ▸ List.mem_iff_getElem?.mpr ⟨j, hjp⟩)
      simp only [Function.update_noteq hne]
      exact hidx j p hjp
    obtain ⟨s2, hpush, hadd, _⟩ :=
      heapPush_spec { s with mem := Function.update s.mem i ⟨0, 0⟩ } i
        (by show 0 < s.spare; omega)
    rw [hpush]
    simp only []
    have h02 : ∀ p, pend s2 p = 0 := by
      intro p
      unfold pend
      rw [hadd.pending p]
      by_cases hp : p = i
      · subst hp; simp
      · simp only [Function.update_noteq hp]; exact h0 p
    have hlen2 : s2.pool.length = s.pool.length + 1 := by
      have := hadd.perm.length_eq
      simpa using this
    have hsp2 : s2.spare + 1 = s.spare := hadd.spare
    have hlt2 : ∀ p : Nat, p ∈ s2.pool → p < i + 1 := by
      intro p hp
      have := hadd.perm.mem_iff.mp hp
      simp only [List.mem_append, List.mem_singleton] at this
      rcases this with h | h
      · have := hlt p h; omega
      · rw [h]; exact Nat.lt_succ_self i
    obtain ⟨s3, he, h03, hidx3, hlen3, hsp3, hlt3⟩ :=
      ih (i + 1) s2 (by omega) h02 (hadd.idx hi hidx1) hlt2
    exact ⟨s3, he, h03, hidx3, by omega, by omega, fun p hp => by
      have := hlt3 p hp; omega⟩

theorem NewBalancerN_spec (n : Nat) :
    ∃ s0, NewBalancerN n = some s0 ∧ (∀ p, pend s0 p = 0) ∧ IdxInv s0 ∧
      s0.pool.length = n ∧ s0.spare = 0 := by
  obtain ⟨s0, he, h0, hidx, hlen, hsp, _⟩ :=
    newLoop_spec n 0 { mem := fun _ => ⟨0, 0⟩, pool := [], spare := n } (le_refl _)
      (fun _ => rfl) (by intro k hk; simp at hk) (by intro p hp; simp at hp)
  refine ⟨s0, he, h0, hidx, by simpa using hlen, ?_⟩
  simp only at hsp
  omega

theorem NewBalancer_inv : ∃ s0, NewBalancer = some s0 ∧ Inv s0 ∧ (∀ p, pend s0 p = 0) := by
  obtain ⟨s0, he, h0, hidx, hlen, _⟩ := NewBalancerN_spec nWorker
  refine ⟨s0, he, ⟨hidx, heapInv_of_const 0 (fun p _ => h0 p), ?_⟩, h0⟩
  rw [hlen]; decide

theorem Inv_dispatch {s : State} (h : Inv s) :
    ∃ w s1, Balancer.dispatch s = some (w, s1) ∧ w ∈ s.pool ∧ Step s w 1 s1 ∧ Inv s1 := by
  obtain ⟨w, s1, he, hw0, hst, hheap⟩ := dispatch_spec s h.nonempty
  refine ⟨w, s1, he, List.mem_iff_getElem?.mpr ⟨0, hw0⟩, hst,
    ⟨hst.idx h.idx, hheap (idxInv_nodup h.idx) h.heap, ?_⟩⟩
  rw [hst.perm.length_eq]; exact h.nonempty

theorem Inv_completed {s : State} (h : Inv s) {w : Ptr} (hw : w ∈ s.pool) :
    ∃ s1, Balancer.completed s w = some s1 ∧ Step s w (-1) s1 ∧ Inv s1 := by
  obtain ⟨s1, he, hst, hheap⟩ := completed_spec s w h.idx hw
  refine ⟨s1, he, hst, ⟨hst.idx h.idx, hheap h.heap, ?_⟩⟩
  rw [hst.perm.length_eq]; exact h.nonempty

theorem run_spec : ∀ (evs : List Event) (s : State), Inv s →
    (∀ w, Event.completed w ∈ evs → w ∈ s.pool) →
    ∃ s1, run s evs = some s1 ∧ Inv s1 ∧ s1.pool.Perm s.pool ∧
      sumPending s1 = sumPending s + (dispatched evs : Int) - (completions evs : Int) := by
  intro evs
  induction evs with
  | nil =>
    intro s h _
    exact ⟨s, rfl, h, List.Perm.refl _, by simp [dispatched, completions]⟩
  | cons e es ih =>
    intro s h haddr
    cases e with
    | dispatch =>
      obtain ⟨w, s1, he, hw, hst, hinv⟩ := Inv_dispatch h
      obtain ⟨s2, hr, hinv2, hperm2, hsum2⟩ := ih s1 hinv (fun v hv =>
        hst.perm.mem_iff.mpr (haddr v (List.mem_cons_of_mem _ hv)))
      refine ⟨s2, ?_, hinv2, hperm2.trans hst.perm, ?_⟩
      · simp only [run, step, he, Option.map_some']
        exact hr
      · rw [hsum2, sumPending_step hst (idxInv_nodup h.idx) hw]
        simp only [dispatched, completions]
        push_cast
        omega
    | completed w =>
      have hw : w ∈ s.pool := haddr w (List.mem_cons_self _ _)
      obtain ⟨s1, he, hst, hinv⟩ := Inv_completed h hw
      obtain ⟨s2, hr, hinv2, hperm2, hsum2⟩ := ih s1 hinv (fun v hv =>
        hst.perm.mem_iff.mpr (haddr v (List.mem_cons_of_mem _ hv)))
      refine ⟨s2, ?_, hinv2, hperm2.trans hst.perm, ?_⟩
      · simp only [run, step, he]
        exact hr
      · rw [hsum2, sumPending_step hst (idxInv_nodup h.idx) hw]
        simp only [dispatched, completions]
        push_cast
        omega

/-! ## The claims -/

/-- C1, as stated, fails: in the pool `aliased` the same worker sits in two
slots; the pool is non-empty and satisfies the heap invariant, `dispatch`
returns, and the pool it leaves has the pending counts `0, 1, 5, 0, 1`, where
slot 3 (count 0) is below its parent slot 1 (count 1). -/
theorem C1_dispatch_aliased_breaks_heap :
    aliased.pool ≠ [] ∧ HeapInv aliased ∧
    ∃ w s1, Balancer.dispatch aliased = some (w, s1) ∧
      s1.pool.map (pend s1) = [0, 1, 5, 0, 1] ∧ ¬ HeapInv s1 := by
  refine ⟨by decide, by decide, _, _, rfl, by decide, by decide⟩

/-- C1, amended: for every non-empty pool of pairwise distinct workers that
satisfies the heap invariant, `Balancer.dispatch` returns and the pool it
leaves satisfies the heap invariant. -/
theorem C1_dispatch_keeps_heap (s : State) (hne : s.pool ≠ []) (hnd : s.pool.Nodup)
    (hh : HeapInv s) :
    ∃ w s1, Balancer.dispatch s = some (w, s1) ∧ HeapInv s1 := by
  obtain ⟨w, s1, he, _, _, hheap⟩ := dispatch_spec s (List.length_pos.mpr hne)
  exact ⟨w, s1, he, hheap hnd hh⟩

theorem C1_dispatch_keeps_heap_witness :
    ∃ w s1, Balancer.dispatch trio = some (w, s1) ∧ HeapInv s1 :=
  C1_dispatch_keeps_heap trio (by decide) (by decide) (by decide)

/-- C2: for every pool with the heap invariant and the index invariant and
every worker `w` in it, `Balancer.completed w` returns and leaves a pool with
the heap invariant; and there is such a pool (`trio`, `w` at address 1) in
which, after `w.pending--` and before `heap.Remove`, the count of `w` is below
that of its parent. -/
theorem C2_completed_keeps_heap (s : State) (w : Ptr) (hh : HeapInv s) (hi : IdxInv s)
    (hw : w ∈ s.pool) :
    (∃ s1, Balancer.completed s w = some s1 ∧ HeapInv s1) ∧
    (∃ (t : State) (v : Ptr) (k : Nat), HeapInv t ∧ IdxInv t ∧ t.pool[k]? = some v ∧
      key { t with mem := setPending t.mem v ((t.mem v).pending - 1) } k <
        key { t with mem := setPending t.mem v ((t.mem v).pending - 1) } ((k - 1) / 2)) := by
  constructor
  · obtain ⟨s1, he, _, hheap⟩ := completed_spec s w hi hw
    exact ⟨s1, he, hheap hh⟩
  · exact ⟨trio, 1, 1, by decide, by decide, by decide, by decide⟩

theorem C2_completed_keeps_heap_witness :
    ∃ s1, Balancer.completed trio 1 = some s1 ∧ HeapInv s1 :=
  (C2_completed_keeps_heap trio 1 (by decide) (by decide) (by decide)).1

/-- C3: for every non-empty pool with the heap invariant, `Balancer.dispatch`
returns, the worker `w` that receives the request is the one whose pending
count goes up by one, and before the dispatch its count was at most that of
every worker of the pool. -/
theorem C3_dispatch_least_loaded (s : State) (hne : s.pool ≠ []) (hh : HeapInv s) :
    ∃ w s1, Balancer.dispatch s = some (w, s1) ∧ w ∈ s.pool ∧
      pend s1 w = pend s w + 1 ∧ ∀ p ∈ s.pool, pend s w ≤ pend s p := by
  obtain ⟨w, s1, he, hw0, hst, _⟩ := dispatch_spec s (List.length_pos.mpr hne)
  refine ⟨w, s1, he, List.mem_iff_getElem?.mpr ⟨0, hw0⟩, ?_, root_le_of_heapInv hh hw0⟩
  have := hst.pending w
  simpa [pend] using this

theorem C3_dispatch_least_loaded_witness :
    ∃ w s1, Balancer.dispatch aliased = some (w, s1) ∧ w ∈ aliased.pool ∧
      pend s1 w = pend aliased w + 1 ∧ ∀ p ∈ aliased.pool, pend aliased w ≤ pend aliased p :=
  C3_dispatch_least_loaded aliased (by decide) (by decide)

theorem sumPending_of_zero {s : State} (h : ∀ p, pend s p = 0) : sumPending s = 0 := by
  unfold sumPending
  have : s.pool.map (pend s) = s.pool.map (fun _ => (0 : Int)) :=
    List.map_congr_left (fun p _ => h p)
  rw [this]
  simp

theorem reach_inv {s : State} {led : Ptr → Nat} (h : Reach s led) :
    Inv s ∧ (∀ p, pend s p = (led p : Int)) ∧ (∀ p, 0 < led p → p ∈ s.pool) := by
  induction h with
  | init s0 h0 =>
    obtain ⟨t, ht, hinv, hz⟩ := NewBalancer_inv
    rw [h0] at ht
    cases ht
    exact ⟨hinv, fun p => by simp [hz p], fun p hp => absurd hp (lt_irrefl _)⟩
  | dispatch s led w s1 _ hd ih =>
    obtain ⟨hinv, hpl, hmem⟩ := ih
    obtain ⟨w1, t, he, hw, hst, hinv1⟩ := Inv_dispatch hinv
    rw [hd] at he
    cases he
    refine ⟨hinv1, ?_, ?_⟩
    · intro p
      unfold pend
      rw [hst.pending p]
      by_cases hp : p = w
      · subst hp
        have := hpl p
        unfold pend at this
        simp [this]
      · simp only [hp, if_false, Function.update_noteq hp]
        exact hpl p
    · intro p hp
      apply hst.perm.mem_iff.mpr
      by_cases hpw : p = w
      · rw [hpw]; exact hw
      · rw [Function.update_noteq hpw] at hp
        exact hmem p hp
  | completed s led w s1 _ hpos hc ih =>
    obtain ⟨hinv, hpl, hmem⟩ := ih
    obtain ⟨t, he, hst, hinv1⟩ := Inv_completed hinv (hmem w hpos)
    rw [hc] at he
    cases he
    refine ⟨hinv1, ?_, ?_⟩
    · intro p
      unfold pend
      rw [hst.pending p]
      by_cases hp : p = w
      · subst hp
        have := hpl p
        unfold pend at this
        simp [this]
        omega
      · simp only [hp, if_false, Function.update_noteq hp]
        exact hpl p
    · intro p hp
      apply hst.perm.mem_iff.mpr
      by_cases hpw : p = w
      · rw [hpw]; exact hmem w hpos
      · rw [Function.update_noteq hpw] at hp
        exact hmem p hp

/-- C4: for every sequence of `dispatch` and `completed` events applied to the
state built by `NewBalancer`, each `completed w` naming a worker of the pool,
the run returns and the pending counts of the pool sum to the number of
dispatches minus the number of completions. -/
theorem C4_conservation (evs : List Event)
    (h : ∀ s0, NewBalancer = some s0 → ∀ w, Event.completed w ∈ evs → w ∈ s0.pool) :
    ∃ s0 s, NewBalancer = some s0 ∧ run s0 evs = some s ∧
      sumPending s = (dispatched evs : Int) - (completions evs : Int) := by
  obtain ⟨s0, h0, hinv, hz⟩ := NewBalancer_inv
  obtain ⟨s, hr, _, _, hsum⟩ := run_spec evs s0 hinv (h s0 h0)
  refine ⟨s0, s, h0, hr, ?_⟩
  rw [hsum, sumPending_of_zero hz]
  omega

theorem C4_conservation_witness :
    ∃ s0 s, NewBalancer = some s0 ∧
      run s0 [Event.dispatch, Event.dispatch, Event.completed 0] = some s ∧
      sumPending s = (dispatched [Event.dispatch, Event.dispatch, Event.completed 0] : Int) -
        (completions [Event.dispatch, Event.dispatch, Event.completed 0] : Int) :=
  C4_conservation [Event.dispatch, Event.dispatch, Event.completed 0] (by
    intro s0 h0 w hw
    have hp : NewBalancer.map (fun s => s.pool) = some [0, 1, 2, 3, 4, 5, 6, 7, 8, 9] := by
      decide
    rw [h0] at hp
    simp only [Option.map_some', Option.some.injEq] at hp
    simp at hw
    rw [hp, hw]
    decide)

/-- C5: in every state reachable from `NewBalancer` by `dispatch` and
`completed` steps in which each `completed w` answers a distinct earlier
dispatch that chose `w`, every worker has a pending count `>= 0`. -/
theorem C5_pending_nonneg (s : State) (led : Ptr → Nat) (h : Reach s led) :
    ∀ p, 0 ≤ pend s p := by
  intro p
  rw [(reach_inv h).2.1 p]
  exact Int.natCast_nonneg _

theorem C5_pending_nonneg_witness :
    ∃ s led, Reach s led ∧ ∀ p, 0 ≤ pend s p := by
  have h1 : Reach _ _ :=
    Reach.completed _ _ 0 _
      (Reach.dispatch _ _ _ _ (Reach.init _ rfl) rfl) (by decide) rfl
  exact ⟨_, _, h1, C5_pending_nonneg _ _ h1⟩

/-- C6: for every pool with the index invariant, `dispatch` (pool non-empty)
and `completed w` (`w` in the pool) return and leave a pool of the same
length that is a permutation of the former one and has no worker twice. -/
theorem C6_same_workers (s : State) (hi : IdxInv s) :
    (s.pool ≠ [] → ∃ w s1, Balancer.dispatch s = some (w, s1) ∧
      s1.pool.length = s.pool.length ∧ s1.pool.Perm s.pool ∧ s1.pool.Nodup) ∧
    (∀ w ∈ s.pool, ∃ s1, Balancer.completed s w = some s1 ∧
      s1.pool.length = s.pool.length ∧ s1.pool.Perm s.pool ∧ s1.pool.Nodup) := by
  have hnd := idxInv_nodup hi
  constructor
  · intro hne
    obtain ⟨w, s1, he, _, hst, _⟩ := dispatch_spec s (List.length_pos.mpr hne)
    exact ⟨w, s1, he, hst.perm.length_eq, hst.perm, hst.perm.nodup_iff.mpr hnd⟩
  · intro w hw
    obtain ⟨s1, he, hst, _⟩ := completed_spec s w hi hw
    exact ⟨s1, he, hst.perm.length_eq, hst.perm, hst.perm.nodup_iff.mpr hnd⟩

theorem C6_same_workers_witness :
    (trio.pool ≠ [] → ∃ w s1, Balancer.dispatch trio = some (w, s1) ∧
      s1.pool.length = trio.pool.length ∧ s1.pool.Perm trio.pool ∧ s1.pool.Nodup) ∧
    (∀ w ∈ trio.pool, ∃ s1, Balancer.completed trio w = some s1 ∧
      s1.pool.length = trio.pool.length ∧ s1.pool.Perm trio.pool ∧ s1.pool.Nodup) :=
  C6_same_workers trio (by decide)

/-- C7: in the state built by `NewBalancer` and after every sequence of
`dispatch` and `completed` events (each `completed w` naming a worker of the
pool) the run returns a state with `pool[k].i = k` for every position `k`,
and for every worker `w` of the pool the call `heap.Remove(&b.pool, w.i)`
made by `completed` after `w.pending--` returns `w` itself. -/
theorem C7_index_invariant (evs : List Event)
    (h : ∀ s0, NewBalancer = some s0 → ∀ w, Event.completed w ∈ evs → w ∈ s0.pool) :
    ∃ s0 s, NewBalancer = some s0 ∧ run s0 evs = some s ∧ IdxInv s ∧
      ∀ w ∈ s.pool, ∃ s2,
        heap.Remove { s with mem := setPending s.mem w ((s.mem w).pending - 1) }
          (s.mem w).i = some (w, s2) := by
  obtain ⟨s0, h0, hinv, _⟩ := NewBalancer_inv
  obtain ⟨s, hr, hinv1, _, _⟩ := run_spec evs s0 hinv (h s0 h0)
  refine ⟨s0, s, h0, hr, hinv1.idx, ?_⟩
  intro w hw
  obtain ⟨k, hk⟩ := List.mem_iff_getElem?.mp hw
  have hklt : k < s.pool.length := (List.getElem?_eq_some.mp hk).1
  have hwi : (s.mem w).i = (k : Int) := (idxInv_iff s).mp hinv1.idx k w hk
  obtain ⟨w1, s2, hrm, hw1, _, _⟩ :=
    heapRemove_spec { s with mem := setPending s.mem w ((s.mem w).pending - 1) } k hklt
  simp only at hw1
  rw [hk] at hw1
  cases hw1
  exact ⟨s2, by rw [hwi]; exact hrm⟩

theorem C7_index_invariant_witness :
    ∃ s0 s, NewBalancer = some s0 ∧ run s0 [Event.dispatch, Event.completed 3] = some s ∧
      IdxInv s ∧
      ∀ w ∈ s.pool, ∃ s2,
        heap.Remove { s with mem := setPending s.mem w ((s.mem w).pending - 1) }
          (s.mem w).i = some (w, s2) :=
  C7_index_invariant [Event.dispatch, Event.completed 3] (by
    intro s0 h0 w hw
    have hp : NewBalancer.map (fun s => s.pool) = some [0, 1, 2, 3, 4, 5, 6, 7, 8, 9] := by
      decide
    rw [h0] at hp
    simp only [Option.map_some', Option.some.injEq] at hp
    simp at hw
    rw [hp, hw]
    decide)

theorem dispatchN_spec : ∀ (k : Nat) (s : State), 0 < s.pool.length → s.pool.Nodup →
    HeapInv s → Balanced s →
    ∃ s1, dispatchN k s = some s1 ∧ s1.pool.Perm s.pool ∧ Balanced s1 ∧
      sumPending s1 = sumPending s + (k : Int) := by
  intro k
  induction k with
  | zero =>
    intro s _ _ _ hb
    exact ⟨s, rfl, List.Perm.refl _, hb, by simp⟩
  | succ k ih =>
    intro s hne hnd hh hb
    obtain ⟨w, s1, he, hw0, hst, hheap⟩ := dispatch_spec s hne
    have hw : w ∈ s.pool := List.mem_iff_getElem?.mpr ⟨0, hw0⟩
    have hmin := root_le_of_heapInv hh hw0
    have hb1 : Balanced s1 := by
      intro p hp q hq
      have hp0 := hst.perm.mem_iff.mp hp
      have hq0 := hst.perm.mem_iff.mp hq
      have e1 := hst.pending p
      have e2 := hst.pending q
      have b1 := hb p hp0 q hq0
      have b2 := hb p hp0 w hw
      have m1 := hmin q hq0
      unfold pend at *
      by_cases hpw : p = w
      · by_cases hqw : q = w
        · rw [e1, e2]; simp only [hpw, hqw, if_true]; omega
        · rw [e1, e2]; simp only [hpw, hqw, if_true, if_false]; omega
      · by_cases hqw : q = w
        · rw [e1, e2]; simp only [hpw, hqw, if_true, if_false]; omega
        · rw [e1, e2]; simp only [hpw, hqw, if_false]; omega
    obtain ⟨s2, hr, hperm2, hb2, hsum2⟩ :=
      ih s1 (by rw [hst.perm.length_eq]; exact hne) (hst.perm.nodup_iff.mpr hnd)
        (hheap hnd hh) hb1
    refine ⟨s2, ?_, hperm2.trans hst.perm, hb2, ?_⟩
    · simp only [dispatchN, he]
      exact hr
    · rw [hsum2, sumPending_step hst hnd hw]
      push_cast
      omega

/-- C8: from a non-empty pool of distinct workers that all have pending 0,
`k` consecutive calls of `Balancer.dispatch` return a pool of the same length
whose pending counts differ by at most one and sum to `k`; with one worker and
`k = 3` the count is 3, with two workers and `k = 2` the counts are 1 and 1. -/
theorem C8_consecutive_dispatches (s : State) (k : Nat) (hne : s.pool ≠ [])
    (hnd : s.pool.Nodup) (h0 : ∀ p ∈ s.pool, pend s p = 0) :
    ∃ s1, dispatchN k s = some s1 ∧ s1.pool.length = s.pool.length ∧
      (∀ p ∈ s1.pool, ∀ q ∈ s1.pool, pend s1 p ≤ pend s1 q + 1) ∧
      sumPending s1 = (k : Int) ∧
      (s.pool.length = 1 → k = 3 → s1.pool.map (pend s1) = [3]) ∧
      (s.pool.length = 2 → k = 2 → s1.pool.map (pend s1) = [1, 1]) := by
  have hb : Balanced s := by
    intro p hp q hq
    rw [h0 p hp, h0 q hq]; decide
  have hs0 : sumPending s = 0 := by
    unfold sumPending
    have : s.pool.map (pend s) = s.pool.map (fun _ => (0 : Int)) :=
      List.map_congr_left (fun p hp => h0 p hp)
    rw [this]
    simp
  obtain ⟨s1, he, hperm, hb1, hsum⟩ :=
    dispatchN_spec k s (List.length_pos.mpr hne) hnd (heapInv_of_const 0 h0) hb
  rw [hs0, zero_add] at hsum
  refine ⟨s1, he, hperm.length_eq, hb1, hsum, ?_, ?_⟩
  · intro h1 hk
    have hl := hperm.length_eq
    rw [h1] at hl
    unfold sumPending at hsum
    match hs : s1.pool, hl with
    | [a], _ =>
      rw [hs] at hsum
      simp only [List.map_cons, List.map_nil, List.sum_cons, List.sum_nil, add_zero] at hsum ⊢
      rw [hsum, hk]
      rfl
  · intro h2 hk
    have hl := hperm.length_eq
    rw [h2] at hl
    unfold sumPending at hsum
    match hs : s1.pool, hl with
    | [a, b], _ =>
      rw [hs] at hsum
      have ha : a ∈ s1.pool := by rw [hs]; simp
      have hb : b ∈ s1.pool := by rw [hs]; simp
      have e1 := hb1 a ha b hb
      have e2 := hb1 b hb a ha
      simp only [List.map_cons, List.map_nil, List.sum_cons, List.sum_nil, add_zero] at hsum ⊢
      subst hk
      have ea : pend s1 a = 1 := by push_cast at hsum; omega
      have eb : pend s1 b = 1 := by push_cast at hsum; omega
      rw [ea, eb]

theorem C8_consecutive_dispatches_witness :
    ∃ s1, dispatchN 2 pair = some s1 ∧ s1.pool.length = pair.pool.length ∧
      (∀ p ∈ s1.pool, ∀ q ∈ s1.pool, pend s1 p ≤ pend s1 q + 1) ∧
      sumPending s1 = ((2 : Nat) : Int) ∧
      (pair.pool.length = 1 → 2 = 3 → s1.pool.map (pend s1) = [3]) ∧
      (pair.pool.length = 2 → 2 = 2 → s1.pool.map (pend s1) = [1, 1]) :=
  C8_consecutive_dispatches pair 2 (by decide) (by decide) (by decide)

/-- C9: for every non-empty pool with the heap invariant and the index
invariant, `dispatch` returns with a chosen worker `w`, `completed w` applied
next returns, and then every worker has the pending count it had before the
dispatch, the pool being a permutation of the former one; with two workers at
pending 0 the counts are 1 and 0 in between and 0 and 0 at the end. -/
theorem C9_dispatch_then_completed (s : State) (hne : s.pool ≠ []) (_hh : HeapInv s)
    (hi : IdxInv s) :
    ∃ w s1 s2, Balancer.dispatch s = some (w, s1) ∧ Balancer.completed s1 w = some s2 ∧
      (∀ p, pend s2 p = pend s p) ∧ s2.pool.Perm s.pool ∧
      (s.pool.length = 2 → (∀ p ∈ s.pool, pend s p = 0) →
        (s1.pool.map (pend s1)).Perm [1, 0] ∧ s2.pool.map (pend s2) = [0, 0]) := by
  obtain ⟨w, s1, he, hw0, hst, _⟩ := dispatch_spec s (List.length_pos.mpr hne)
  have hw : w ∈ s.pool := List.mem_iff_getElem?.mpr ⟨0, hw0⟩
  have hw1 : w ∈ s1.pool := hst.perm.mem_iff.mpr hw
  obtain ⟨s2, he2, hst2, _⟩ := completed_spec s1 w (hst.idx hi) hw1
  have hback : ∀ p, pend s2 p = pend s p := by
    intro p
    unfold pend
    rw [hst2.pending p, hst.pending p]
    by_cases hp : p = w
    · simp only [hp, if_true]; omega
    · simp only [hp, if_false]
  refine ⟨w, s1, s2, he, he2, hback, hst2.perm.trans hst.perm, ?_⟩
  intro h2 hz
  have hnd := idxInv_nodup hi
  constructor
  · have hp1 := hst.perm.map (pend s1)
    refine hp1.trans ?_
    match hs : s.pool, h2 with
    | [a, b], _ =>
      rw [hs] at hw0 hnd hz
      simp only [List.getElem?_cons_zero, Option.some.injEq] at hw0
      have hab : b ≠ a := by
        intro e
        rw [e] at hnd
        simp at hnd
      have ea : pend s1 a = 1 := by
        unfold pend
        rw [hst.pending a]
        have := hz a (by simp)
        unfold pend at this
        rw [hw0] at this
        simp [hw0, this]
      have eb : pend s1 b = 0 := by
        unfold pend
        rw [hst.pending b]
        have := hz b (by simp)
        unfold pend at this
        rw [← hw0]
        simp [hab, this]
      simp only [List.map_cons, List.map_nil, ea, eb]
      exact List.Perm.refl _
  · have hl : s2.pool.length = 2 := by
      rw [(hst2.perm.trans hst.perm).length_eq]; exact h2
    have hz2 : ∀ p ∈ s2.pool, pend s2 p = 0 := by
      intro p hp
      rw [hback p]
      exact hz p ((hst2.perm.trans hst.perm).mem_iff.mp hp)
    match hs : s2.pool, hl with
    | [a, b], _ =>
      rw [hs] at hz2
      simp only [List.map_cons, List.map_nil, hz2 a (by simp), hz2 b (by simp)]

theorem C9_dispatch_then_completed_witness :
    ∃ w s1 s2, Balancer.dispatch pair = some (w, s1) ∧ Balancer.completed s1 w = some s2 ∧
      (∀ p, pend s2 p = pend pair p) ∧ s2.pool.Perm pair.pool ∧
      (pair.pool.length = 2 → (∀ p ∈ pair.pool, pend pair p = 0) →
        (s1.pool.map (pend s1)).Perm [1, 0] ∧ s2.pool.map (pend s2) = [0, 0]) :=
  C9_dispatch_then_completed pair (by decide) (by decide) (by decide)

theorem work_getElem? (w : Ptr) : ∀ (rs : List Request) (k : Nat),
    (Worker.work w rs)[2 * k]? = (rs[k]?).map (fun r => Send.result r.c (r.fn ())) ∧
    (Worker.work w rs)[2 * k + 1]? = (rs[k]?).map (fun _ => Send.done w) := by
  intro rs
  induction rs with
  | nil => intro k; simp [Worker.work]
  | cons r rs ih =>
    intro k
    cases k with
    | zero => simp [Worker.work]
    | succ k =>
      have e1 : 2 * (k + 1) = (2 * k) + 1 + 1 := by omega
      rw [e1]
      simp only [Worker.work, List.getElem?_cons_succ]
      exact ih k

/-- C10: on the requests `r1..rk` taken from its inbox, `Worker.work` makes
exactly `2k` sends: for each position `j`, send number `2j` is the result
`r.fn()` on the reply channel of request `j` and send number `2j+1` is the
completion notification carrying the worker itself, so the requests are
handled in inbox order and a completion never precedes its result. -/
theorem C10_work_trace (w : Ptr) (rs : List Request) :
    (Worker.work w rs).length = 2 * rs.length ∧
    ∀ j, (Worker.work w rs)[2 * j]? =
          (rs[j]?).map (fun r => Send.result r.c (r.fn ())) ∧
         (Worker.work w rs)[2 * j + 1]? = (rs[j]?).map (fun _ => Send.done w) := by
  refine ⟨?_, work_getElem? w rs⟩
  induction rs with
  | nil => rfl
  | cons r rs ih =>
    simp only [Worker.work, List.length_cons, ih]
    omega

/-! ## The procedures of `container/heap` on a well-formed pool -/

theorem perm_erase_of_concat {l t : List Ptr} {w : Ptr} (h : l.Perm (t ++ [w])) :
    t.Perm (l.erase w) := by
  have h1 : l.Perm (w :: t) := h.trans (List.perm_append_singleton w t)
  have h2 := h1.erase w
  rw [List.erase_cons_head] at h2
  exact h2.symm

theorem length_of_removed {s s1 : State} {w : Ptr} (h : Removed s w s1) :
    s1.pool.length + 1 = s.pool.length := by
  have := h.perm.length_eq
  simp at this
  omega

/-- C12: for every pool with the heap invariant and the index invariant and
every position `i < len(pool)`, `heap.Remove(&pool, i)` returns the worker
that was in slot `i`, with its `i` field set to `-1`; the pool left has
`len - 1` slots, holds the former workers without that one, and satisfies the
heap invariant and the index invariant. -/
theorem C12_heap_remove (s : State) (i : Nat) (hh : HeapInv s) (hi : IdxInv s)
    (hlt : i < s.pool.length) :
    ∃ w s1, heap.Remove s (i : Int) = some (w, s1) ∧ s.pool[i]? = some w ∧
      (s1.mem w).i = -1 ∧ s1.pool.length = s.pool.length - 1 ∧
      s1.pool.Perm (s.pool.erase w) ∧ HeapInv s1 ∧ IdxInv s1 := by
  obtain ⟨w, s1, he, hw, hrem, hheap⟩ := heapRemove_spec s i hlt
  have hl := length_of_removed hrem
  exact ⟨w, s1, he, hw, hrem.idxw, by omega, perm_erase_of_concat hrem.perm,
    hheap (heapExcept_of_heapOn hh i hlt), hrem.idx (idxInv_nodup hi) hi⟩

theorem C12_heap_remove_witness :
    ∃ w s1, heap.Remove roomy ((1 : Nat) : Int) = some (w, s1) ∧ roomy.pool[1]? = some w ∧
      (s1.mem w).i = -1 ∧ s1.pool.length = roomy.pool.length - 1 ∧
      s1.pool.Perm (roomy.pool.erase w) ∧ HeapInv s1 ∧ IdxInv s1 :=
  C12_heap_remove roomy 1 (by decide) (by decide) (by decide)

/-- C13: for every non-empty pool with the heap invariant and the index
invariant, `heap.Pop(&pool)` returns a worker whose pending count is at most
that of every worker of the pool, with its `i` field set to `-1`; the pool left
has `len - 1` slots, holds the former workers without that one, and satisfies
the heap invariant and the index invariant. -/
theorem C13_heap_pop (s : State) (hne : s.pool ≠ []) (hh : HeapInv s) (hi : IdxInv s) :
    ∃ w s1, heap.Pop s = some (w, s1) ∧ w ∈ s.pool ∧
      (∀ p ∈ s.pool, pend s w ≤ pend s p) ∧
      (s1.mem w).i = -1 ∧ s1.pool.length = s.pool.length - 1 ∧
      s1.pool.Perm (s.pool.erase w) ∧ HeapInv s1 ∧ IdxInv s1 := by
  obtain ⟨w, s1, he, hw, hrem, hheap⟩ := heapPop_spec s (List.length_pos.mpr hne)
  have hl := length_of_removed hrem
  exact ⟨w, s1, he, List.mem_iff_getElem?.mpr ⟨0, hw⟩, root_le_of_heapInv hh hw,
    hrem.idxw, by omega, perm_erase_of_concat hrem.perm, hheap hh,
    hrem.idx (idxInv_nodup hi) hi⟩

theorem C13_heap_pop_witness :
    ∃ w s1, heap.Pop roomy = some (w, s1) ∧ w ∈ roomy.pool ∧
      (∀ p ∈ roomy.pool, pend roomy w ≤ pend roomy p) ∧
      (s1.mem w).i = -1 ∧ s1.pool.length = roomy.pool.length - 1 ∧
      s1.pool.Perm (roomy.pool.erase w) ∧ HeapInv s1 ∧ IdxInv s1 :=
  C13_heap_pop roomy (by decide) (by decide) (by decide)

/-- C14: for every pool with the heap invariant and the index invariant whose
length is below its capacity, and every worker `w` not in the pool,
`heap.Push(&pool, w)` returns a pool of `len + 1` slots that holds the former
workers plus `w` and satisfies the heap invariant and the index invariant; in
particular `w.i` is the slot where `w` ends up. -/
theorem C14_heap_push (s : State) (w : Ptr) (hh : HeapInv s) (hi : IdxInv s)
    (hcap : s.pool.length < s.cap) (hw : w ∉ s.pool) :
    ∃ s1, heap.Push s w = some s1 ∧ s1.pool.Perm (w :: s.pool) ∧
      s1.pool.length = s.pool.length + 1 ∧ HeapInv s1 ∧ IdxInv s1 ∧
      ∃ k : Nat, s1.pool[k]? = some w ∧ (s1.mem w).i = (k : Int) := by
  have hsp : 0 < s.spare := by
    unfold State.cap at hcap
    omega
  obtain ⟨s1, he, hadd, hheap⟩ := heapPush_spec s w hsp
  have hperm : s1.pool.Perm (w :: s.pool) :=
    hadd.perm.trans (List.perm_append_singleton w s.pool)
  have hidx1 := hadd.idx hw hi
  have hw1 : w ∈ s1.pool := hperm.mem_iff.mpr (List.mem_cons_self _ _)
  obtain ⟨k, hk⟩ := List.mem_iff_getElem?.mp hw1
  refine ⟨s1, he, hperm, ?_, hheap hh, hidx1, k, hk, (idxInv_iff s1).mp hidx1 k w hk⟩
  have := hperm.length_eq
  simpa using this

theorem C14_heap_push_witness :
    ∃ s1, heap.Push roomy 3 = some s1 ∧ s1.pool.Perm (3 :: roomy.pool) ∧
      s1.pool.length = roomy.pool.length + 1 ∧ HeapInv s1 ∧ IdxInv s1 ∧
      ∃ k : Nat, s1.pool[k]? = some 3 ∧ (s1.mem 3).i = (k : Int) :=
  C14_heap_push roomy 3 (by decide) (by decide) (by decide) (by decide)

/-- C15: for every pool of distinct workers and every two valid positions `i`
and `j`, `Pool.Swap(i, j)` returns; afterwards slot `i` holds the worker
formerly in slot `j`, whose `i` field is `i`, slot `j` holds the worker
formerly in slot `i`, whose `i` field is `j`, and every other slot, the `i`
field of every other worker, every pending count and the capacity are
unchanged. -/
theorem C15_swap (s : State) (i j : Nat) (hnd : s.pool.Nodup) (hi : i < s.pool.length)
    (hj : j < s.pool.length) :
    ∃ s1, Pool.Swap s i j = some s1 ∧
      s1.pool[i]? = s.pool[j]? ∧ s1.pool[j]? = s.pool[i]? ∧
      (∀ y, s.pool[j]? = some y → (s1.mem y).i = (i : Int)) ∧
      (∀ x, s.pool[i]? = some x → (s1.mem x).i = (j : Int)) ∧
      (∀ k, k ≠ i → k ≠ j → s1.pool[k]? = s.pool[k]?) ∧
      (∀ p, s.pool[i]? ≠ some p → s.pool[j]? ≠ some p → (s1.mem p).i = (s.mem p).i) ∧
      (∀ p, (s1.mem p).pending = (s.mem p).pending) ∧
      s1.pool.length = s.pool.length ∧ s1.spare = s.spare := by
  refine ⟨swapped s i j hi hj, Swap_some s hi hj, ?_, ?_, ?_, ?_, ?_, ?_,
    swapped_pending s i j hi hj, swapped_length s i j hi hj, rfl⟩
  · rw [swapped_getElem?]
    by_cases h : i = j
    · subst h; simp
    · simp [h]
  · rw [swapped_getElem?]; simp
  · intro y hy
    rw [List.getElem?_eq_getElem hj] at hy
    have hy' : s.pool[j] = y := Option.some.inj hy
    simp only [swapped, setI_i]
    by_cases h : y = s.pool[i]
    · have : j = i := (hnd.getElem_inj_iff).mp (hy'.trans h)
      simp [h, this]
    · simp [h, hy']
  · intro x hx
    rw [List.getElem?_eq_getElem hi] at hx
    have hx' : s.pool[i] = x := Option.some.inj hx
    simp [swapped, setI_i, hx']
  · intro k hki hkj
    rw [swapped_getElem?]
    simp [hki, hkj]
  · intro p hp1 hp2
    rw [List.getElem?_eq_getElem hi] at hp1
    rw [List.getElem?_eq_getElem hj] at hp2
    have h1 : p ≠ s.pool[i] := fun e => hp1 (by rw [e])
    have h2 : p ≠ s.pool[j] := fun e => hp2 (by rw [e])
    rw [swapped_mem_of_ne s i j hi hj p h1 h2]

theorem C15_swap_witness :
    ∃ s1, Pool.Swap roomy 0 2 = some s1 ∧
      s1.pool[0]? = roomy.pool[2]? ∧ s1.pool[2]? = roomy.pool[0]? ∧
      (∀ y, roomy.pool[2]? = some y → (s1.mem y).i = ((0 : Nat) : Int)) ∧
      (∀ x, roomy.pool[0]? = some x → (s1.mem x).i = ((2 : Nat) : Int)) ∧
      (∀ k, k ≠ 0 → k ≠ 2 → s1.pool[k]? = roomy.pool[k]?) ∧
      (∀ p, roomy.pool[0]? ≠ some p → roomy.pool[2]? ≠ some p →
        (s1.mem p).i = (roomy.mem p).i) ∧
      (∀ p, (s1.mem p).pending = (roomy.mem p).pending) ∧
      s1.pool.length = roomy.pool.length ∧ s1.spare = roomy.spare :=
  C15_swap roomy 0 2 (by decide) (by decide) (by decide)

/-! ## The pending counts under `dispatch` and `completed` -/

theorem Swap_none_of_le (s : State) (i j : Nat) (h : s.pool.length ≤ i) :
    Pool.Swap s i j = none := by
  unfold Pool.Swap
  rw [List.getElem?_eq_none h]

theorem heapRemove_none (s : State) (i : Int)
    (h : i < 0 ∨ (s.pool.length : Int) ≤ i) : heap.Remove s i = none := by
  unfold heap.Remove Pool.Len
  simp only []
  by_cases hin : ((s.pool.length : Int) - 1) = i
  · rw [if_neg (by simpa using hin)]
    have hlen : s.pool.length = 0 := by omega
    have hnil : s.pool = [] := List.length_eq_zero.mp hlen
    unfold Pool.Pop
    rw [hnil]
    rfl
  · rw [if_pos (by simpa using hin)]
    by_cases hneg : i < 0
    · rw [if_pos hneg]
    · rw [if_neg hneg]
      have hge : s.pool.length ≤ i.toNat := by omega
      rw [Swap_none_of_le s _ _ hge]

theorem completed_none (s : State) (w : Ptr)
    (h : (s.mem w).i < 0 ∨ (s.pool.length : Int) ≤ (s.mem w).i) :
    Balancer.completed s w = none := by
  unfold Balancer.completed
  simp only [Bool.false_eq_true, if_false, setPending_i]
  rw [heapRemove_none { s with mem := setPending s.mem w ((s.mem w).pending - 1) } _ h]

theorem completed_at (s : State) (w : Ptr) (k : Nat) (hk : k < s.pool.length)
    (hwi : (s.mem w).i = (k : Int)) :
    ∃ s3, Balancer.completed s w = some s3 ∧
      ∀ p, (s3.mem p).pending =
        if p = w then (s.mem p).pending - 1 else (s.mem p).pending := by
  obtain ⟨w1, s2, hrm, _, hrem, _⟩ :=
    heapRemove_spec { s with mem := setPending s.mem w ((s.mem w).pending - 1) } k hk
  obtain ⟨s3, hpush, hadd, _⟩ := heapPush_spec s2 w (by rw [hrem.spare]; omega)
  refine ⟨s3, ?_, ?_⟩
  · unfold Balancer.completed
    simp only [Bool.false_eq_true, if_false, setPending_i, hwi]
    rw [hrm]
    simp only []
    exact hpush
  · intro p
    rw [hadd.pending p, hrem.pending p]
    simp only [setPending_pending]
    by_cases hp : p = w
    · subst hp; simp
    · simp [hp]

theorem completed_pending (s : State) (w : Ptr) (s1 : State)
    (h : Balancer.completed s w = some s1) :
    ∀ p, (s1.mem p).pending =
      if p = w then (s.mem p).pending - 1 else (s.mem p).pending := by
  by_cases hr : (s.mem w).i < 0 ∨ (s.pool.length : Int) ≤ (s.mem w).i
  · rw [completed_none s w hr] at h
    cases h
  · have h0 : 0 ≤ (s.mem w).i := by omega
    have h1 : (s.mem w).i.toNat < s.pool.length := by omega
    have h2 : (s.mem w).i = ((s.mem w).i.toNat : Int) := by omega
    obtain ⟨s3, he, hp⟩ := completed_at s w _ h1 h2
    rw [h] at he
    cases he
    exact hp

/-- C16: `Balancer.dispatch` on a non-empty pool returns and raises the pending
count of exactly one worker, the one it chose, by 1; `Balancer.completed w` on
a pool with the index invariant and `w` in it returns and takes `w.pending` to
`w.pending - 1`, from 0 to -1 as well; and whenever `Balancer.completed w`
returns, on any pool and for any `w`, it has changed the pending count of `w`
by -1 and that of no other worker. -/
theorem C16_pending_frame (s : State) :
    (s.pool ≠ [] → ∃ w s1, Balancer.dispatch s = some (w, s1) ∧
      pend s1 w = pend s w + 1 ∧ ∀ p, p ≠ w → pend s1 p = pend s p) ∧
    (IdxInv s → ∀ w ∈ s.pool, ∃ s1, Balancer.completed s w = some s1 ∧
      pend s1 w = pend s w - 1 ∧ (pend s w = 0 → pend s1 w = -1) ∧
      ∀ p, p ≠ w → pend s1 p = pend s p) ∧
    (∀ w s1, Balancer.completed s w = some s1 →
      pend s1 w = pend s w - 1 ∧ ∀ p, p ≠ w → pend s1 p = pend s p) := by
  have hc : ∀ w s1, Balancer.completed s w = some s1 →
      pend s1 w = pend s w - 1 ∧ ∀ p, p ≠ w → pend s1 p = pend s p := by
    intro w s1 h
    have hp := completed_pending s w s1 h
    constructor
    · have := hp w
      simpa [pend] using this
    · intro p hpw
      have := hp p
      simpa [pend, hpw] using this
  refine ⟨?_, ?_, hc⟩
  · intro hne
    obtain ⟨w, s1, he, _, hst, _⟩ := dispatch_spec s (List.length_pos.mpr hne)
    refine ⟨w, s1, he, ?_, ?_⟩
    · have := hst.pending w
      simpa [pend] using this
    · intro p hpw
      have := hst.pending p
      simpa [pend, hpw] using this
  · intro hi w hw
    obtain ⟨s1, he, _, _⟩ := completed_spec s w hi hw
    obtain ⟨h1, h2⟩ := hc w s1 he
    refine ⟨s1, he, h1, ?_, h2⟩
    intro h0
    rw [h1, h0]
    rfl

theorem C16_pending_frame_witness :
    pend pair 0 = 0 ∧
    ∃ s1, Balancer.completed pair 0 = some s1 ∧
      pend s1 0 = pend pair 0 - 1 ∧ (pend pair 0 = 0 → pend s1 0 = -1) ∧
      ∀ p, p ≠ 0 → pend s1 p = pend pair p :=
  ⟨by decide, (C16_pending_frame pair).2.1 (by decide) 0 (by decide)⟩

/-! ## `NewBalancer` and the capacity of the pool -/

theorem newChansLoop_apply : ∀ (k i : Nat) (c : Ptr → Nat) (p : Nat),
    newChansLoop k i c p = if i ≤ p ∧ p < i + k then nRequester else c p := by
  intro k
  induction k with
  | zero =>
    intro i c p
    have : ¬ (i ≤ p ∧ p < i + 0) := by omega
    simp only [newChansLoop, this, if_false]
  | succ k ih =>
    intro i c p
    simp only [newChansLoop]
    rw [ih]
    by_cases hp : p = i
    · subst hp
      have h1 : ¬ (p + 1 ≤ p ∧ p < p + 1 + k) := by omega
      have h2 : p ≤ p ∧ p < p + (k + 1) := by omega
      simp [h1]
    · rw [Function.update_noteq hp]
      by_cases h1 : i + 1 ≤ p ∧ p < i + 1 + k
      · have h2 : i ≤ p ∧ p < i + (k + 1) := by omega
        simp only [h1, h2, if_true]
      · have h2 : ¬ (i ≤ p ∧ p < i + (k + 1)) := by omega
        simp only [h1, h2, if_false]

/-- C17: `NewBalancer` returns a pool of exactly `nWorker = 10` pairwise
distinct workers, each with pending 0, with `pool[k].i = k` for every position,
so that the index invariant and the heap invariant hold, and with capacity
`nWorker`; the inbox of each of these workers has capacity `nRequester = 100`
and the completion channel has capacity `nWorker`. -/
theorem C17_new_balancer :
    ∃ s0, NewBalancer = some s0 ∧ nWorker = 10 ∧ s0.pool.length = nWorker ∧
      s0.pool.Nodup ∧ (∀ p ∈ s0.pool, pend s0 p = 0) ∧ IdxInv s0 ∧ HeapInv s0 ∧
      s0.cap = nWorker ∧
      (∀ w ∈ s0.pool, NewBalancerChans.requests w = nRequester) ∧ nRequester = 100 ∧
      NewBalancerChans.done = nWorker := by
  obtain ⟨s0, he, h0, hidx, hlen, hsp, hlt⟩ :=
    newLoop_spec nWorker 0 { mem := fun _ => ⟨0, 0⟩, pool := [], spare := nWorker }
      (le_refl _) (fun _ => rfl) (by intro k hk; simp at hk) (by intro p hp; simp at hp)
  have hlen0 : s0.pool.length = nWorker := by simpa using hlen
  have hsp0 : s0.spare = 0 := by
    simp only at hsp
    omega
  refine ⟨s0, he, rfl, hlen0, idxInv_nodup hidx, fun p _ => h0 p, hidx,
    heapInv_of_const 0 (fun p _ => h0 p), ?_, ?_, rfl, rfl⟩
  · unfold State.cap
    omega
  · intro w hw
    have hw1 : w < 0 + nWorker := hlt w hw
    show newChansLoop nWorker 0 (fun _ => 0) w = nRequester
    rw [newChansLoop_apply]
    have : 0 ≤ w ∧ w < 0 + nWorker := ⟨Nat.zero_le _, hw1⟩
    simp only [this, and_self, if_true]

theorem run_cap : ∀ (evs : List Event) (s : State), Inv s →
    (∀ w, Event.completed w ∈ evs → w ∈ s.pool) →
    ∃ s1, run s evs = some s1 ∧ Inv s1 ∧ s1.pool.Perm s.pool ∧ s1.spare = s.spare := by
  intro evs
  induction evs with
  | nil =>
    intro s h _
    exact ⟨s, rfl, h, List.Perm.refl _, rfl⟩
  | cons e es ih =>
    intro s h haddr
    cases e with
    | dispatch =>
      obtain ⟨w, s1, he, _, hst, hinv⟩ := Inv_dispatch h
      obtain ⟨s2, hr, hinv2, hperm2, hsp2⟩ := ih s1 hinv (fun v hv =>
        hst.perm.mem_iff.mpr (haddr v (List.mem_cons_of_mem _ hv)))
      refine ⟨s2, ?_, hinv2, hperm2.trans hst.perm, hsp2.trans hst.spare⟩
      simp only [run, step, he, Option.map_some']
      exact hr
    | completed w =>
      have hw : w ∈ s.pool := haddr w (List.mem_cons_self _ _)
      obtain ⟨s1, he, hst, hinv⟩ := Inv_completed h hw
      obtain ⟨s2, hr, hinv2, hperm2, hsp2⟩ := ih s1 hinv (fun v hv =>
        hst.perm.mem_iff.mpr (haddr v (List.mem_cons_of_mem _ hv)))
      refine ⟨s2, ?_, hinv2, hperm2.trans hst.perm, hsp2.trans hst.spare⟩
      simp only [run, step, he]
      exact hr

/-- C18: `Pool.Push` returns nothing when `len(pool) = cap(pool)`, and when it
returns it has kept the capacity; in `NewBalancer` the push of iteration `k`
is made on a pool of length `k < nWorker` and capacity `nWorker` and returns;
and in every state that a run of `dispatch` and `completed` events (each
`completed w` naming a worker of the pool) reaches from `NewBalancer`, the
capacity is `nWorker`, and both in `dispatch` (after `heap.Pop` and
`w.pending++`) and in `completed w` (after `w.pending--` and `heap.Remove`)
`Pool.Push` is called with `len(pool) < cap(pool) = nWorker` and returns, as
do `dispatch` and `completed w`. -/
theorem C18_push_within_capacity (evs : List Event)
    (h : ∀ s0, NewBalancer = some s0 → ∀ w, Event.completed w ∈ evs → w ∈ s0.pool) :
    (∀ t w, t.pool.length = t.cap → Pool.Push t w = none) ∧
    (∀ t w t1, Pool.Push t w = some t1 →
      t1.cap = t.cap ∧ t1.pool.length = t.pool.length + 1) ∧
    (∀ k, k < nWorker → ∃ sk,
      newLoop k 0 { mem := fun _ => ⟨0, 0⟩, pool := [], spare := nWorker } = some sk ∧
      sk.pool.length = k ∧ sk.cap = nWorker ∧
      ∃ t1, Pool.Push { sk with mem := Function.update sk.mem k ⟨0, 0⟩ } k = some t1) ∧
    ∃ s0 s, NewBalancer = some s0 ∧ run s0 evs = some s ∧ s.cap = nWorker ∧
      (∃ w s1, heap.Pop s = some (w, s1) ∧ s1.pool.length < s1.cap ∧ s1.cap = nWorker ∧
        (∃ t1, Pool.Push
          { s1 with mem := setPending s1.mem w ((s1.mem w).pending + 1) } w = some t1) ∧
        ∃ s3, Balancer.dispatch s = some (w, s3)) ∧
      (∀ w ∈ s.pool, ∃ s2,
        heap.Remove { s with mem := setPending s.mem w ((s.mem w).pending - 1) }
          (s.mem w).i = some (w, s2) ∧
        s2.pool.length < s2.cap ∧ s2.cap = nWorker ∧
        (∃ t1, Pool.Push s2 w = some t1) ∧
        ∃ s3, Balancer.completed s w = some s3) := by
  refine ⟨?_, ?_, ?_, ?_⟩
  · intro t w ht
    have hsp : t.spare = 0 := by
      unfold State.cap at ht
      omega
    unfold Pool.Push
    rw [hsp]
  · intro t w t1 ht
    by_cases hsp : 0 < t.spare
    · rw [PoolPush_some t w hsp] at ht
      cases ht
      unfold State.cap
      simp only [List.length_append, List.length_singleton]
      constructor
      · omega
      · trivial
    · have h0 : t.spare = 0 := by omega
      unfold Pool.Push at ht
      rw [h0] at ht
      cases ht
  · intro k hk
    obtain ⟨sk, he, _, _, hlen, hsp, _⟩ :=
      newLoop_spec k 0 { mem := fun _ => ⟨0, 0⟩, pool := [], spare := nWorker }
        (le_of_lt hk) (fun _ => rfl) (by intro j hj; simp at hj) (by intro p hp; simp at hp)
    simp only [List.length_nil, zero_add] at hlen
    simp only at hsp
    refine ⟨sk, he, hlen, by unfold State.cap; omega, ?_⟩
    exact ⟨_, PoolPush_some { sk with mem := Function.update sk.mem k ⟨0, 0⟩ } k
      (by show 0 < sk.spare; omega)⟩
  · obtain ⟨s0, he, _, hidx, hlen, hsp0⟩ := NewBalancerN_spec nWorker
    obtain ⟨s0', he', hinv0, _⟩ := NewBalancer_inv
    have hs : s0' = s0 := by
      have : NewBalancer = some s0 := he
      rw [he'] at this
      exact Option.some.inj this
    subst hs
    obtain ⟨s, hr, hinv, hperm, hsp⟩ := run_cap evs s0' hinv0 (h s0' he')
    have hslen : s.pool.length = nWorker := by rw [hperm.length_eq]; exact hlen
    have hssp : s.spare = 0 := by rw [hsp]; exact hsp0
    have hpos : 0 < nWorker := by decide
    refine ⟨s0', s, he', hr, by unfold State.cap; omega, ?_, ?_⟩
    · obtain ⟨w, s1, hpop, _, hrem, _⟩ := heapPop_spec s hinv.nonempty
      have hl := length_of_removed hrem
      have hs1 := hrem.spare
      obtain ⟨w1, s3, hd, _, _⟩ := Inv_dispatch hinv
      have hww : w1 = w := by
        unfold Balancer.dispatch at hd
        rw [hpop] at hd
        simp only [] at hd
        split at hd
        · cases hd
        · cases hd; rfl
      subst hww
      refine ⟨w1, s1, hpop, by unfold State.cap; omega, by unfold State.cap; omega, ?_,
        s3, hd⟩
      exact ⟨_, PoolPush_some
        { s1 with mem := setPending s1.mem w1 ((s1.mem w1).pending + 1) } w1
        (by show 0 < s1.spare; omega)⟩
    · intro w hw
      obtain ⟨k, hk⟩ := List.mem_iff_getElem?.mp hw
      have hklt : k < s.pool.length := (List.getElem?_eq_some.mp hk).1
      have hwi : (s.mem w).i = (k : Int) := (idxInv_iff s).mp hinv.idx k w hk
      obtain ⟨w1, s2, hrm, hw1, hrem, _⟩ :=
        heapRemove_spec { s with mem := setPending s.mem w ((s.mem w).pending - 1) } k hklt
      simp only at hw1
      rw [hk] at hw1
      cases hw1
      have hl := length_of_removed hrem
      have hs2 := hrem.spare
      simp only at hl hs2
      obtain ⟨s3, hc, _, _⟩ := Inv_completed hinv hw
      refine ⟨s2, by rw [hwi]; exact hrm, by unfold State.cap; omega,
        by unfold State.cap; omega, ?_, s3, hc⟩
      exact ⟨_, PoolPush_some s2 w (by omega)⟩

theorem C18_push_within_capacity_witness :
    (∀ t w, t.pool.length = t.cap → Pool.Push t w = none) ∧
    (∀ t w t1, Pool.Push t w = some t1 →
      t1.cap = t.cap ∧ t1.pool.length = t.pool.length + 1) ∧
    (∀ k, k < nWorker → ∃ sk,
      newLoop k 0 { mem := fun _ => ⟨0, 0⟩, pool := [], spare := nWorker } = some sk ∧
      sk.pool.length = k ∧ sk.cap = nWorker ∧
      ∃ t1, Pool.Push { sk with mem := Function.update sk.mem k ⟨0, 0⟩ } k = some t1) ∧
    ∃ s0 s, NewBalancer = some s0 ∧
      run s0 [Event.dispatch, Event.completed 0, Event.dispatch] = some s ∧
      s.cap = nWorker ∧
      (∃ w s1, heap.Pop s = some (w, s1) ∧ s1.pool.length < s1.cap ∧ s1.cap = nWorker ∧
        (∃ t1, Pool.Push
          { s1 with mem := setPending s1.mem w ((s1.mem w).pending + 1) } w = some t1) ∧
        ∃ s3, Balancer.dispatch s = some (w, s3)) ∧
      (∀ w ∈ s.pool, ∃ s2,
        heap.Remove { s with mem := setPending s.mem w ((s.mem w).pending - 1) }
          (s.mem w).i = some (w, s2) ∧
        s2.pool.length < s2.cap ∧ s2.cap = nWorker ∧
        (∃ t1, Pool.Push s2 w = some t1) ∧
        ∃ s3, Balancer.completed s w = some s3) :=
  C18_push_within_capacity [Event.dispatch, Event.completed 0, Event.dispatch] (by
    intro s0 h0 w hw
    have hp : NewBalancer.map (fun s => s.pool) = some [0, 1, 2, 3, 4, 5, 6, 7, 8, 9] := by
      decide
    rw [h0] at hp
    simp only [Option.map_some', Option.some.injEq] at hp
    simp at hw
    rw [hp, hw]
    decide)

end LoadBalancer
